import Mathlib

/-
Verification of the mongoqs query-string processor (mongoqs.go).

The embedding below is a shallow translation of the Go source:
  * strings are modelled as Lean String / List Char (all grammar characters
    are ASCII, so Go byte indices and char indices coincide);
  * Go maps are modelled as association lists (when only built and looked up
    in insertion order) or as functions String -> Option _ (for the result
    maps, where only the key/value association is observable);
  * Go's `for k, v := range m` over a map visits keys in an unspecified
    order, so the per-value processing loop of ApplyFilter takes the
    iteration order as an explicit parameter (any permutation of the keys);
  * the external standard-library parsers (strconv.ParseInt,
    strconv.ParseBool, primitive.ObjectIDFromHex, strconv.ParseFloat,
    time.Parse) are not part of this repository; the repository's logic is
    uniform in them, so the development is parameterised by a bundle of
    parsers (`Parsers`); faithful models of ParseInt / ParseBool /
    ObjectIDFromHex are supplied for evaluating concrete instances.
-/

namespace MongoQS

/-- Go source: oplist - the twelve recognised operator tokens, in the order
of the alternation of the compiled regex `eq:|ne:|gt:|gte:|lt:|lte:|in:|nin:|all:|like:|slike:|elike:`. -/
def oplist : List String :=
  ["eq:", "ne:", "gt:", "gte:", "lt:", "lte:", "in:", "nin:", "all:", "like:", "slike:", "elike:"]

/-- Go source: the six single-valued comparison operators (first group of the
`switch op` in ApplyFilter). -/
def singleOps : List String := ["eq:", "ne:", "gt:", "gte:", "lt:", "lte:"]

/-- Go source: the three multi-valued set operators. -/
def setOps : List String := ["in:", "nin:", "all:"]

/-- Go source: the three search operators (string fields only). -/
def searchOps : List String := ["like:", "slike:", "elike:"]

/-- The operator token (if any) matching at the start of the character list.
No two tokens of `oplist` can match at the same position (none is a prefix of
another), so this models Go's regexp alternation at one position exactly. -/
def opAt (s : List Char) : Option String :=
  oplist.find? (fun op => op.toList.isPrefixOf s)

/-- Helper for findOps: scans one character at a time; while `skip` is
positive the scanner is inside the previously matched token, so no match may
start there (Go's matches are non-overlapping). -/
def findOpsAux : List Char → Nat → Nat → List (Nat × Nat × String)
  | [], _, _ => []
  | c :: rest, pos, 0 =>
    (match opAt (c :: rest) with
     | some op => (pos, pos + op.length, op) :: findOpsAux rest (pos + 1) (op.length - 1)
     | none => findOpsAux rest (pos + 1) 0)
  | _ :: rest, pos, skip + 1 => findOpsAux rest (pos + 1) skip

/-- Model of `opregex.FindAllStringIndex(qvalue, len(qvalue))`: the list of
(start, end, token) triples of all non-overlapping leftmost matches.  `pos` is
the index of the head of `s` inside the original string. -/
def findOps (s : List Char) (pos : Nat) : List (Nat × Nat × String) :=
  findOpsAux s pos 0

/-- Model of `strings.Split(s, ",")` on character lists. -/
def splitComma : List Char → List (List Char)
  | [] => [[]]
  | c :: rest =>
    if c = ',' then [] :: splitComma rest
    else
      match splitComma rest with
      | h :: t => (c :: h) :: t
      | [] => [[c]]

/-- Model of `strings.TrimSuffix(s, ",")`: remove one trailing comma if present. -/
def trimSuffixComma (s : List Char) : List Char :=
  match s.reverse with
  | c :: r => if c = ',' then r.reverse else s
  | [] => s

/-- Go source: `strings.Split(strings.TrimSuffix(x, ","), ",")` - the value
splitting applied to every tokenizer segment. -/
def splitVals (s : List Char) : List String :=
  (splitComma (trimSuffixComma s)).map (fun l => String.mk l)

/-- Slice `q[a:b]` of a character list (Go string slicing). -/
def sliceCL (q : List Char) (a b : Nat) : List Char :=
  (q.drop a).take (b - a)

/-- The per-occurrence (operator, values) pairs of the segment loop in
`toOpValueMap`: each segment runs from the end of its operator token to the
start of the next token (or the end of the string). -/
def segsOf (q : List Char) : List (Nat × Nat × String) → List (String × List String)
  | [] => []
  | (_, e, op) :: rest =>
    let endIdx :=
      match rest with
      | (s2, _, _) :: _ => s2
      | [] => q.length
    (op, splitVals (sliceCL q e endIdx)) :: segsOf q rest

/-- The occurrence list of `toOpValueMap` before map accumulation: the
leading-content equality entry (when the first operator is not at position 0),
followed by one entry per operator occurrence; if no operator occurs, a single
equality entry holding the whole split string. -/
def occList (q : List Char) : List (String × List String) :=
  match findOps q 0 with
  | [] => [("eq:", splitVals q)]
  | (s0, e0, op0) :: rest =>
    (if 0 < s0 then [("eq:", splitVals (sliceCL q 0 s0))] else [])
      ++ segsOf q ((s0, e0, op0) :: rest)

/-- Model of `result[op] = append(result[op], value...)` on an association
list: values for an existing key accumulate in encounter order, a new key is
appended at the end. -/
def ovmAppend (m : List (String × List String)) (op : String) (vs : List String) :
    List (String × List String) :=
  match m with
  | [] => [(op, vs)]
  | (k, old) :: rest =>
    if k = op then (k, old ++ vs) :: rest else (k, old) :: ovmAppend rest op vs

/-- Go source: toOpValueMap - builds the operator -> value-list map of one raw
parameter value (represented as an association list in insertion order; Go's
map has no observable order, only the key/value association and the key set). -/
def toOpValueMap (q : List Char) : List (String × List String) :=
  (occList q).foldl (fun m e => ovmAppend m e.1 e.2) []

/-- Association-list lookup (Go map read `m[op]`). -/
def lookupOvm : List (String × List String) → String → Option (List String)
  | [], _ => none
  | (k, vs) :: rest, op => if k = op then some vs else lookupOvm rest op

/-- Model of `strings.Join(values, ",")`. -/
def joinComma : List String → String
  | [] => ""
  | [s] => s
  | s :: rest => s ++ "," ++ joinComma rest

/-- Go source: toMOp - adds a leading $ to the operator and drops the trailing
colon (`"$" + op[0:len(op)-1]`). -/
def toMOp (op : String) : String :=
  "$" ++ String.mk op.toList.dropLast

/-- Is the character one of Go regexp.QuoteMeta's special characters
(the set of bytes escaped by the standard library: backslash dot plus star
question parens pipe square-brackets curly-brackets caret dollar)? -/
def isRegexSpecial (c : Char) : Bool :=
  c ∈ ['\\', '.', '+', '*', '?', '(', ')', '|', '[', ']', Char.ofNat 123, Char.ofNat 125, '^', '$']

/-- Model of `regexp.QuoteMeta`: a backslash is inserted before every special
character. -/
def quoteMeta (s : String) : String :=
  String.mk (s.toList.foldr (fun c acc => if isRegexSpecial c then '\\' :: c :: acc else c :: acc) [])

/-- Go source: QType - the field value type enumeration. -/
inductive QType where
  | QString
  | QInt
  | QFloat
  | QBool
  | QDateTime
  | QObjectID
deriving DecidableEq

/-- A typed operand produced by one of the external per-type parsers: int64
(vInt), float64 (vFloat, carried as its parse token), bool (vBool),
primitive.DateTime (vDateTime, milliseconds), primitive.ObjectID (vObjectID,
the decoded bytes carried as normalised hex). -/
inductive TVal where
  | vInt : Int → TVal
  | vFloat : Nat → TVal
  | vBool : Bool → TVal
  | vDateTime : Int → TVal
  | vObjectID : String → TVal
deriving DecidableEq

/-- The external standard-library parsers called by ApplyFilter
(strconv.ParseInt base 10 bitSize 64, strconv.ParseFloat 64,
strconv.ParseBool, time.Parse RFC3339, primitive.ObjectIDFromHex).  They are
not part of this repository and the repository's control flow is uniform in
them, so the development quantifies over this bundle. -/
structure Parsers where
  pInt : String → Option Int
  pFloat : String → Option Nat
  pBool : String → Option Bool
  pDateTime : String → Option Int
  pObjectID : String → Option String

/-- Dispatch of the per-type parser, as performed by the `switch f.Type`
blocks of ApplyFilter (never consulted for QString values). -/
def parseFor (P : Parsers) : QType → String → Option TVal
  | .QString, _ => none
  | .QInt, v => (P.pInt v).map TVal.vInt
  | .QFloat, v => (P.pFloat v).map TVal.vFloat
  | .QBool, v => (P.pBool v).map TVal.vBool
  | .QDateTime, v => (P.pDateTime v).map TVal.vDateTime
  | .QObjectID, v => (P.pObjectID v).map TVal.vObjectID

/-- A BSON value as stored in a filter fragment by ApplyFilter: a string, a
string list, a typed operand, or a typed operand list. -/
inductive BVal where
  | bstr : String → BVal
  | bstrList : List String → BVal
  | btyped : TVal → BVal
  | btypedList : List TVal → BVal
deriving DecidableEq

/-- Pointwise update of a map modelled as a function (Go `m[k] = v`). -/
def fupd {α : Type} (m : String → Option α) (k : String) (v : α) : String → Option α :=
  fun x => if x = k then some v else m x

/-- Go source: QField - one declared query field.  The Go struct field `Type`
is called `ftype` here (`Type` is a Lean keyword); `Default` is the default
supplier and `HasDefaultFunc` its configured flag, exactly as in the source. -/
structure QField where
  ftype : QType
  Key : String
  Default : Unit → String := fun _ => ""
  Aliases : List String := []
  IsProjectable : Bool := false
  IsSortable : Bool := false
  IsMeta : Bool := false
  HasDefaultFunc : Bool := false

/-- Go source: QResult - filter, projection, sort, paging and meta outputs.
The bson.M maps and the meta map are modelled as functions from keys; the Go
struct field `Sort` is called `Srt` here (`Sort` is a Lean keyword). -/
structure QResult where
  Filter : String → Option (String → Option BVal)
  Projection : String → Option Int
  Srt : String → Option Int
  Limit : Int
  Skip : Int
  Meta : String → Option String

/-- Go source: NewQResult - the empty result. -/
def NewQResult : QResult :=
  { Filter := fun _ => none
    Projection := fun _ => none
    Srt := fun _ => none
    Limit := 0
    Skip := 0
    Meta := fun _ => none }

/-- One iteration of ApplyFilter's `for op, values := range opValueMap` loop:
the Go `switch op` / `switch f.Type` blocks, acting on the running
(fragment, nfilters) state. -/
def applyOp (P : Parsers) (t : QType) (op : String) (values : List String)
    (st : (String → Option BVal) × Nat) : (String → Option BVal) × Nat :=
  if op ∈ singleOps then
    if t = QType.QString then
      (fupd st.1 (toMOp op) (BVal.bstr (joinComma values)), st.2 + 1)
    else
      values.foldl (fun acc v =>
        match parseFor P t v with
        | some tv => (fupd acc.1 (toMOp op) (BVal.btyped tv), acc.2 + 1)
        | none => acc) st
  else if op ∈ setOps then
    if t = QType.QString then
      (fupd st.1 (toMOp op) (BVal.bstrList values), st.2 + 1)
    else
      let vlist := values.filterMap (parseFor P t)
      if vlist = [] then st
      else (fupd st.1 (toMOp op) (BVal.btypedList vlist), st.2 + 1)
  else if op = "like:" then
    if t = QType.QString then
      (fupd (fupd st.1 "$regex" (BVal.bstr (quoteMeta (joinComma values))))
        "$options" (BVal.bstr "i"), st.2 + 1)
    else st
  else if op = "slike:" then
    if t = QType.QString then
      (fupd (fupd st.1 "$regex" (BVal.bstr ("^" ++ quoteMeta (joinComma values))))
        "$options" (BVal.bstr "i"), st.2 + 1)
    else st
  else if op = "elike:" then
    if t = QType.QString then
      (fupd (fupd st.1 "$regex" (BVal.bstr (quoteMeta (joinComma values) ++ "$")))
        "$options" (BVal.bstr "i"), st.2 + 1)
    else st
  else st

/-- Go source: (f *QField) ApplyFilter - processes one raw value and applies
the produced fragment to the result.  Go ranges over the operator map in an
unspecified order, so the order is an explicit parameter here: `order` is the
sequence of keys the range happens to visit (any permutation of the map's
keys; see validOrder). -/
def ApplyFilterOrder (P : Parsers) (t : QType) (key : String) (qvalue : String)
    (order : List String) (out : QResult) : QResult :=
  let ovm := toOpValueMap qvalue.toList
  let st := order.foldl (fun st op =>
      match lookupOvm ovm op with
      | some values => applyOp P t op values st
      | none => st) (((fun _ => none) : String → Option BVal), (0 : Nat))
  if 0 < st.2 then { out with Filter := fupd out.Filter key st.1 } else out

/-- The key list of an operator-value map. -/
def ovmKeys (m : List (String × List String)) : List String :=
  m.map Prod.fst

/-- A list of keys is a possible Go map iteration order for the operator map
of a raw value exactly when it is a permutation of the map's key set. -/
def validOrder (qvalue : String) (order : List String) : Prop :=
  order.Perm (ovmKeys (toOpValueMap qvalue.toList))

/-- Model of strconv.ParseInt(s, 10, 64): optional single sign, one or more
ASCII digits, 64-bit signed range; on any violation Go returns an error and
the caller drops the value. -/
def goParseInt (s : String) : Option Int :=
  match s.toList with
  | [] => none
  | c :: rest =>
    let neg := c = '-'
    let digits := if c = '-' ∨ c = '+' then rest else c :: rest
    if digits = [] then none
    else if digits.all Char.isDigit then
      let n : Nat := digits.foldl (fun a d => a * 10 + (d.toNat - 48)) 0
      if neg then
        if n ≤ 2 ^ 63 then some (-(n : Int)) else none
      else
        if n ≤ 2 ^ 63 - 1 then some (n : Int) else none
    else none

/-- Model of strconv.ParseBool: the twelve accepted literals. -/
def goParseBool (s : String) : Option Bool :=
  if s ∈ ["1", "t", "T", "TRUE", "true", "True"] then some true
  else if s ∈ ["0", "f", "F", "FALSE", "false", "False"] then some false
  else none

/-- Model of primitive.ObjectIDFromHex: exactly 24 hex digits; the decoded
bytes are carried as the lower-cased hex string. -/
def goParseOID (s : String) : Option String :=
  if s.toList.length = 24 ∧ s.toList.all (fun c => c.isDigit ∨ ('a' ≤ c ∧ c ≤ 'f') ∨ ('A' ≤ c ∧ c ≤ 'F')) then
    some (String.mk (s.toList.map Char.toLower))
  else none

/-- A concrete member of the parser family, used to evaluate witnesses and
counterexamples: the int, bool and ObjectID components model their Go
standard-library counterparts; the float and datetime components are members
of the quantified family that are not exercised by any witness. -/
def witnessParsers : Parsers :=
  { pInt := goParseInt
    pFloat := fun _ => none
    pBool := goParseBool
    pDateTime := fun _ => none
    pObjectID := goParseOID }

/-- The projection-token loop of the processor: builds the `projections` map
and the running sign sum (which starts at 1 in the caller). -/
def processPrj : List (List Char) → ((String → Option Int) × Int) → ((String → Option Int) × Int)
  | [], st => st
  | tok :: rest, (m, sum) =>
    if tok = [] then processPrj rest (m, sum)
    else if tok.head? = some '+' then processPrj rest (fupd m (String.mk tok.tail) 1, sum + 1)
    else if tok.head? = some '-' then processPrj rest (fupd m (String.mk tok.tail) (-1), sum - 1)
    else processPrj rest (fupd m (String.mk tok) 1, sum + 1)

/-- The sort-token loop of the processor: builds the `sorts` map. -/
def processSrt : List (List Char) → (String → Option Int) → (String → Option Int)
  | [], m => m
  | tok :: rest, m =>
    if tok = [] then processSrt rest m
    else if tok.head? = some '+' then processSrt rest (fupd m (String.mk tok.tail) 1)
    else if tok.head? = some '-' then processSrt rest (fupd m (String.mk tok.tail) (-1))
    else processSrt rest (fupd m (String.mk tok) 1)

/-- The raw-value resolution of the field loop: the declared key first, then
the first alias with a non-empty value, then the default supplier when
configured; empty string when nothing resolves. -/
def resolveValue (f : QField) (query : String → String) : String :=
  let qv := query f.Key
  let qv :=
    if qv = "" then
      match f.Aliases.find? (fun a => query a ≠ "") with
      | some a => query a
      | none => ""
    else qv
  if qv = "" ∧ f.HasDefaultFunc then f.Default () else qv

/-- One iteration of the processor's field loop: resolve the raw value, skip
the field when empty, short-circuit meta fields into the meta map, apply
projection and sort membership, then ApplyFilter. -/
def procField (P : Parsers) (projections : String → Option Int) (projsum : Int)
    (sorts : String → Option Int) (query : String → String) (order : List String)
    (f : QField) (acc : QResult) : QResult :=
  let qvalue := resolveValue f query
  if qvalue = "" then acc
  else if f.IsMeta then { acc with Meta := fupd acc.Meta f.Key qvalue }
  else
    let acc1 :=
      if f.IsProjectable then
        match projections f.Key with
        | some _ => { acc with Projection := fupd acc.Projection f.Key projsum }
        | none =>
          f.Aliases.foldl (fun a al =>
            match projections al with
            | some _ => { a with Projection := fupd a.Projection f.Key projsum }
            | none => a) acc
      else acc
    let acc2 :=
      if f.IsSortable then
        match sorts f.Key with
        | some ord => { acc1 with Srt := fupd acc1.Srt f.Key ord }
        | none =>
          f.Aliases.foldl (fun a al =>
            match sorts al with
            | some ord => { a with Srt := fupd a.Srt f.Key ord }
            | none => a) acc1
      else acc1
    ApplyFilterOrder P f.ftype f.Key qvalue order acc2

/-- The processor's field loop (`for _, field := range fields`), carrying the
position of the current field so that `orders` can supply the map iteration
order of each field's ApplyFilter call. -/
def foldFields (P : Parsers) (projections : String → Option Int) (projsum : Int)
    (sorts : String → Option Int) (query : String → String) (orders : Nat → List String) :
    Nat → List QField → QResult → QResult
  | _, [], acc => acc
  | i, f :: rest, acc =>
    foldFields P projections projsum sorts query orders (i + 1) rest
      (procField P projections projsum sorts query (orders i) f acc)

/-- Go source: the closure returned by NewQProcessor - converts one raw
parameter map (url.Values.Get modelled as a function from key to first value,
empty string when absent) into a QResult.  `orders` supplies, per field
position, the iteration order of that field's operator map (Go's map range
order is unspecified). -/
def processQuery (P : Parsers) (fields : List QField) (orders : Nat → List String)
    (query : String → String) : QResult :=
  let pp := processPrj (splitComma (query "prj").toList) ((fun _ => none), 1)
  let projections := pp.1
  let projsum := max 0 (min 1 pp.2)
  let sorts := processSrt (splitComma (query "srt").toList) (fun _ => none)
  let r0 : QResult :=
    { NewQResult with
      Limit := match goParseInt (query "lmt") with | some l => l | none => 0
      Skip := match goParseInt (query "skp") with | some s => s | none => 0 }
  foldFields P projections projsum sorts query orders 0 fields r0

/-- The validity condition on the per-field iteration orders of a whole
processor invocation, starting at field position `i`. -/
def ordersValidFrom (query : String → String) (orders : Nat → List String) :
    Nat → List QField → Prop
  | _, [] => True
  | i, f :: rest =>
    validOrder (resolveValue f query) (orders i) ∧ ordersValidFrom query orders (i + 1) rest

/-- First component of Option.or, spelled out (used to state lookup results of
sequences of map writes). -/
def orO {α : Type} : Option α → Option α → Option α
  | some v, _ => some v
  | none, o => o

/-- Apply a sequence of map writes (`m[k] = v`) left to right. -/
def applyWrites (r : String → Option BVal) (ws : List (String × BVal)) : String → Option BVal :=
  ws.foldl (fun r p => fupd r p.1 p.2) r

/-- The value left at key `m` by a sequence of writes (the last write wins),
none if no write touches `m`. -/
def lastWrite : List (String × BVal) → String → Option BVal
  | [], _ => none
  | (k, v) :: ws, m =>
    match lastWrite ws m with
    | some v2 => some v2
    | none => if k = m then some v else none

/-- The exact sequence of fragment writes performed by one `switch op` block
of ApplyFilter (one per successful parse for typed single-valued operators,
one for the typed list of a set operator when non-empty, the pattern and
options writes of a search operator on a string field, and so on). -/
def writesOf (P : Parsers) (t : QType) (op : String) (values : List String) :
    List (String × BVal) :=
  if op ∈ singleOps then
    if t = QType.QString then [(toMOp op, BVal.bstr (joinComma values))]
    else (values.filterMap (parseFor P t)).map (fun tv => (toMOp op, BVal.btyped tv))
  else if op ∈ setOps then
    if t = QType.QString then [(toMOp op, BVal.bstrList values)]
    else
      let vlist := values.filterMap (parseFor P t)
      if vlist = [] then [] else [(toMOp op, BVal.btypedList vlist)]
  else if op = "like:" then
    if t = QType.QString then
      [("$regex", BVal.bstr (quoteMeta (joinComma values))), ("$options", BVal.bstr "i")]
    else []
  else if op = "slike:" then
    if t = QType.QString then
      [("$regex", BVal.bstr ("^" ++ quoteMeta (joinComma values))), ("$options", BVal.bstr "i")]
    else []
  else if op = "elike:" then
    if t = QType.QString then
      [("$regex", BVal.bstr (quoteMeta (joinComma values) ++ "$")), ("$options", BVal.bstr "i")]
    else []
  else []

/-- The contribution of one `switch op` block to the `nfilters` counter. -/
def cntOf (P : Parsers) (t : QType) (op : String) (values : List String) : Nat :=
  if op ∈ singleOps then
    if t = QType.QString then 1 else (values.filterMap (parseFor P t)).length
  else if op ∈ setOps then
    if t = QType.QString then 1
    else if values.filterMap (parseFor P t) = [] then 0 else 1
  else if op ∈ searchOps then
    if t = QType.QString then 1 else 0
  else 0

/-- The set of fragment keys an operator can write for a field type (its
static write footprint). -/
def writeKeys (t : QType) (op : String) : List String :=
  if op ∈ singleOps then [toMOp op]
  else if op ∈ setOps then [toMOp op]
  else if op ∈ searchOps then
    if t = QType.QString then ["$regex", "$options"] else []
  else []

/-- The concatenated write sequence of a list of operators. -/
def catWrites (W : String → List (String × BVal)) : List String → List (String × BVal)
  | [] => []
  | op :: rest => W op ++ catWrites W rest

/-- The summed nfilters contributions of a list of operators. -/
def sumCnt (C : String → Nat) : List String → Nat
  | [] => 0
  | op :: rest => C op + sumCnt C rest

/-- The write sequence of one operator key of an operator map. -/
def ovmW (P : Parsers) (t : QType) (ovm : List (String × List String)) (op : String) :
    List (String × BVal) :=
  writesOf P t op ((lookupOvm ovm op).getD [])

/-- The nfilters contribution of one operator key of an operator map. -/
def ovmC (P : Parsers) (t : QType) (ovm : List (String × List String)) (op : String) : Nat :=
  cntOf P t op ((lookupOvm ovm op).getD [])

/-- The in-order concatenation of the value lists that the occurrence list
assigns to one operator (what map accumulation produces for that key). -/
def valsFor (op : String) : List (String × List String) → List String
  | [] => []
  | (k, vs) :: rest => (if k = op then vs else []) ++ valsFor op rest

/-- The projection-parameter field names as the spec describes them: each
non-empty comma token with its leading include/exclude marker stripped. -/
def prjNames : List (List Char) → List String
  | [] => []
  | tok :: rest =>
    if tok = [] then prjNames rest
    else if tok.head? = some '+' ∨ tok.head? = some '-' then
      String.mk tok.tail :: prjNames rest
    else String.mk tok :: prjNames rest

/-- The projection sign sum as the spec describes it: +1 per non-empty token
with an include marker or no marker, -1 per token with an exclude marker. -/
def prjSum : List (List Char) → Int
  | [] => 0
  | tok :: rest =>
    if tok = [] then prjSum rest
    else (if tok.head? = some '-' then -1 else 1) + prjSum rest

/-- At most one distinct search operator occurs among the operator keys of a
raw value (the condition under which ApplyFilter's fragment is independent of
the map iteration order). -/
def atMostOneSearch (qvalue : String) : Prop :=
  ∀ o1 ∈ ovmKeys (toOpValueMap qvalue.toList), ∀ o2 ∈ ovmKeys (toOpValueMap qvalue.toList),
    o1 ∈ searchOps → o2 ∈ searchOps → o1 = o2

instance instDecValidOrder (qvalue : String) (order : List String) :
    Decidable (validOrder qvalue order) :=
  inferInstanceAs (Decidable (order.Perm (ovmKeys (toOpValueMap qvalue.toList))))

instance instDecAtMostOneSearch (qvalue : String) : Decidable (atMostOneSearch qvalue) :=
  inferInstanceAs (Decidable (∀ o1 ∈ ovmKeys (toOpValueMap qvalue.toList),
    ∀ o2 ∈ ovmKeys (toOpValueMap qvalue.toList), o1 ∈ searchOps → o2 ∈ searchOps → o1 = o2))

instance instDecOrdersValidFrom (query : String → String) (orders : Nat → List String) :
    (i : Nat) → (fields : List QField) → Decidable (ordersValidFrom query orders i fields)
  | _, [] => .isTrue trivial
  | i, f :: rest =>
    haveI := instDecOrdersValidFrom query orders (i + 1) rest
    inferInstanceAs (Decidable (validOrder (resolveValue f query) (orders i) ∧
      ordersValidFrom query orders (i + 1) rest))

/-- A raw parameter map built from an association list (url.Values.Get:
first value for the key, empty string when absent). -/
def qy (ps : List (String × String)) : String → String :=
  fun k => ((ps.find? (fun p => p.1 = k)).map Prod.snd).getD ""

/-- An integer-typed field named count (used by concrete instances). -/
def fInt : QField := { ftype := QType.QInt, Key := "count" }

/-- A string-typed field named name (used by concrete instances). -/
def fName : QField := { ftype := QType.QString, Key := "name" }

/-- A projectable string field named a (used by concrete instances). -/
def fProj : QField := { ftype := QType.QString, Key := "a", IsProjectable := true }

/-- A meta field named pageMarker (used by concrete instances). -/
def fMeta : QField := { ftype := QType.QString, Key := "pageMarker", IsMeta := true }

/-- A string field with two aliases (used by concrete instances). -/
def fAlias : QField := { ftype := QType.QString, Key := "objectId", Aliases := ["oid", "id"] }

/-- The $regex entry of the name fragment of a result (observation used to
distinguish two results). -/
def regexObs (r : QResult) : Option BVal :=
  match r.Filter "name" with
  | some fr => fr "$regex"
  | none => none

/-- The sort order the field loop ends up writing for a field (the key's
entry if present, else the entry of the last matching alias - the Go alias
loop has no break, so a later matching alias overwrites an earlier one),
none when nothing matches or the field is not sortable. -/
def sortOrdOf (sorts : String → Option Int) (f : QField) : Option Int :=
  if f.IsSortable then
    match sorts f.Key with
    | some ord => some ord
    | none => (f.Aliases.filterMap sorts).getLast?
  else none

/-- Does the field loop write a projection entry for the field: the field is
projectable and its key or one of its aliases appears in the projections map. -/
def projHit (projections : String → Option Int) (f : QField) : Prop :=
  f.IsProjectable ∧ ((projections f.Key).isSome ∨ ∃ al ∈ f.Aliases, (projections al).isSome)

instance instDecProjHit (projections : String → Option Int) (f : QField) :
    Decidable (projHit projections f) :=
  inferInstanceAs (Decidable (_ ∧ _))

/-! Lemmas about the write-sequence view of ApplyFilter's fragment. -/

theorem orO_none_right {α : Type} (x : Option α) : orO x none = x := by
  cases x <;> rfl

theorem applyWrites_append (r : String → Option BVal) (a b : List (String × BVal)) :
    applyWrites r (a ++ b) = applyWrites (applyWrites r a) b := by
  simp [applyWrites, List.foldl_append]

theorem applyWrites_apply (ws : List (String × BVal)) (r : String → Option BVal) (m : String) :
    applyWrites r ws m = orO (lastWrite ws m) (r m) := by
  induction ws generalizing r with
  | nil => rfl
  | cons p tl ih =>
    obtain ⟨k, v⟩ := p
    show applyWrites (fupd r k v) tl m = _
    rw [ih]
    simp only [lastWrite]
    cases h : lastWrite tl m with
    | some v2 => rfl
    | none =>
      simp only [orO, fupd]
      by_cases hm : m = k
      · subst hm; simp
      · have : ¬(k = m) := fun h2 => hm h2.symm
        simp [hm, this]

theorem lastWrite_append (a b : List (String × BVal)) (m : String) :
    lastWrite (a ++ b) m = orO (lastWrite b m) (lastWrite a m) := by
  induction a with
  | nil => simp [lastWrite, orO_none_right]
  | cons p tl ih =>
    obtain ⟨k, v⟩ := p
    show (match lastWrite (tl ++ b) m with
      | some v2 => some v2
      | none => if k = m then some v else none) = _
    rw [ih]
    cases h : lastWrite b m <;> cases h2 : lastWrite tl m <;> simp [lastWrite, orO, h2]

theorem lastWrite_all_none (ws : List (String × BVal)) (m : String)
    (h : ∀ p ∈ ws, p.1 ≠ m) : lastWrite ws m = none := by
  induction ws with
  | nil => rfl
  | cons p tl ih =>
    obtain ⟨k, v⟩ := p
    have hk : k ≠ m := h (k, v) (by simp)
    have : lastWrite tl m = none := ih (fun p hp => h p (by simp [hp]))
    simp [lastWrite, this, hk]

theorem foldl_typed_single (P : Parsers) (t : QType) (mk : String) (values : List String)
    (st : (String → Option BVal) × Nat) :
    values.foldl (fun acc v =>
      match parseFor P t v with
      | some tv => (fupd acc.1 mk (BVal.btyped tv), acc.2 + 1)
      | none => acc) st
    = (applyWrites st.1 ((values.filterMap (parseFor P t)).map (fun tv => (mk, BVal.btyped tv))),
       st.2 + (values.filterMap (parseFor P t)).length) := by
  induction values generalizing st with
  | nil => simp [applyWrites]
  | cons v tl ih =>
    cases h : parseFor P t v with
    | none => simp [List.foldl_cons, h, ih, List.filterMap_cons]
    | some tv =>
      simp only [List.foldl_cons, h, ih, List.filterMap_cons, List.map_cons, List.length_cons]
      refine Prod.ext_iff.mpr ⟨rfl, by omega⟩

theorem applyOp_eq (P : Parsers) (t : QType) (op : String) (values : List String)
    (st : (String → Option BVal) × Nat) :
    applyOp P t op values st = (applyWrites st.1 (writesOf P t op values),
      st.2 + cntOf P t op values) := by
  by_cases h1 : op ∈ singleOps
  · by_cases ht : t = QType.QString
    · simp [applyOp, writesOf, cntOf, h1, ht, applyWrites]
    · simp only [applyOp, writesOf, cntOf, h1, if_pos, if_neg ht, ite_true]
      exact foldl_typed_single P t (toMOp op) values st
  · by_cases h2 : op ∈ setOps
    · by_cases ht : t = QType.QString
      · simp [applyOp, writesOf, cntOf, h1, h2, ht, applyWrites]
      · by_cases hv : values.filterMap (parseFor P t) = []
        · simp [applyOp, writesOf, cntOf, h1, h2, ht, hv, applyWrites]
        · simp [applyOp, writesOf, cntOf, h1, h2, ht, hv, applyWrites]
    · have h3 : op ∉ searchOps ∨ op ∈ searchOps := by tauto
      by_cases hl : op = "like:"
      · subst hl
        by_cases ht : t = QType.QString <;>
          simp [applyOp, writesOf, cntOf, h1, h2, ht, applyWrites, searchOps]
      · by_cases hs : op = "slike:"
        · subst hs
          by_cases ht : t = QType.QString <;>
            simp [applyOp, writesOf, cntOf, h1, h2, hl, ht, applyWrites, searchOps]
        · by_cases he : op = "elike:"
          · subst he
            by_cases ht : t = QType.QString <;>
              simp [applyOp, writesOf, cntOf, h1, h2, hl, hs, ht, applyWrites, searchOps]
          · have hns : op ∉ searchOps := by simp [searchOps, hl, hs, he]
            simp [applyOp, writesOf, cntOf, h1, h2, hl, hs, he, hns, applyWrites]

theorem lookupOvm_isSome_iff (m : List (String × List String)) (op : String) :
    (lookupOvm m op).isSome ↔ op ∈ ovmKeys m := by
  induction m with
  | nil => simp [lookupOvm, ovmKeys]
  | cons p tl ih =>
    obtain ⟨k, vs⟩ := p
    simp only [lookupOvm, ovmKeys, List.map_cons, List.mem_cons]
    by_cases h : k = op
    · subst h; simp
    · have h2 : ¬ op = k := fun e => h e.symm
      simp [h, h2, ih, ovmKeys]

theorem foldl_ops (P : Parsers) (t : QType) (ovm : List (String × List String))
    (L : List String) (h : ∀ op ∈ L, op ∈ ovmKeys ovm) (st : (String → Option BVal) × Nat) :
    L.foldl (fun st op =>
      match lookupOvm ovm op with
      | some values => applyOp P t op values st
      | none => st) st
    = (applyWrites st.1 (catWrites (ovmW P t ovm) L), st.2 + sumCnt (ovmC P t ovm) L) := by
  induction L generalizing st with
  | nil => simp [catWrites, sumCnt, applyWrites]
  | cons op tl ih =>
    have hm : op ∈ ovmKeys ovm := h op (by simp)
    obtain ⟨vs, hvs⟩ := Option.isSome_iff_exists.mp ((lookupOvm_isSome_iff _ _).mpr hm)
    simp only [List.foldl_cons, hvs]
    rw [applyOp_eq, ih (fun o ho => h o (by simp [ho]))]
    simp only [catWrites, sumCnt, ovmW, ovmC, hvs, Option.getD_some]
    rw [applyWrites_append]
    refine Prod.ext_iff.mpr ⟨rfl, by omega⟩

theorem applyWrites_empty (ws : List (String × BVal)) (m : String) :
    applyWrites (fun _ => none) ws m = lastWrite ws m := by
  rw [applyWrites_apply]; exact orO_none_right _

theorem ApplyFilterOrder_eq (P : Parsers) (t : QType) (key qvalue : String)
    (order : List String) (out : QResult) (h : validOrder qvalue order) :
    ApplyFilterOrder P t key qvalue order out =
      (if 0 < sumCnt (ovmC P t (toOpValueMap qvalue.toList)) order then
        { out with Filter := fupd out.Filter key (applyWrites (fun _ => none) (catWrites (ovmW P t (toOpValueMap qvalue.toList)) order)) }
      else out) := by
  have hmem : ∀ op ∈ order, op ∈ ovmKeys (toOpValueMap qvalue.toList) :=
    fun op hop => h.mem_iff.mp hop
  simp only [ApplyFilterOrder]
  rw [foldl_ops P t _ order hmem]
  simp

/-! Decidable facts about the fixed operator vocabulary. -/

theorem oplist_split : ∀ op ∈ oplist, op ∈ singleOps ∨ op ∈ setOps ∨ op ∈ searchOps := by
  decide

theorem toMOp_inj : ∀ o1 ∈ oplist, ∀ o2 ∈ oplist, toMOp o1 = toMOp o2 → o1 = o2 := by
  decide

theorem toMOp_ne_search_keys : ∀ o ∈ oplist, toMOp o ≠ "$regex" ∧ toMOp o ≠ "$options" := by
  decide

theorem singleOps_sub : ∀ o ∈ singleOps, o ∈ oplist := by decide

theorem setOps_sub : ∀ o ∈ setOps, o ∈ oplist := by decide

theorem searchOps_sub : ∀ o ∈ searchOps, o ∈ oplist := by decide

theorem writesOf_keys (P : Parsers) (t : QType) (op : String) (values : List String) :
    ∀ p ∈ writesOf P t op values, p.1 ∈ writeKeys t op := by
  intro p hp
  by_cases h1 : op ∈ singleOps
  · by_cases ht : t = QType.QString
    · simp [writesOf, h1, ht] at hp
      simp [writeKeys, h1, hp]
    · simp only [writesOf, h1, if_true, if_neg ht] at hp
      obtain ⟨tv, _, rfl⟩ := List.mem_map.mp hp
      simp [writeKeys, h1]
  · by_cases h2 : op ∈ setOps
    · by_cases ht : t = QType.QString
      · simp [writesOf, h1, h2, ht] at hp
        simp [writeKeys, h1, h2, hp]
      · simp only [writesOf, h1, if_neg, if_pos h2, if_neg ht] at hp
        by_cases hv : values.filterMap (parseFor P t) = []
        · simp [hv] at hp
        · simp [hv] at hp
          simp [writeKeys, h1, h2, hp]
    · by_cases ht : t = QType.QString
      · by_cases hl : op = "like:"
        · subst hl
          simp [writesOf, h1, h2, ht] at hp
          rcases hp with rfl | rfl <;> simp [writeKeys, singleOps, setOps, searchOps, ht]
        · by_cases hs : op = "slike:"
          · subst hs
            simp [writesOf, h1, h2, hl, ht] at hp
            rcases hp with rfl | rfl <;> simp [writeKeys, singleOps, setOps, searchOps, ht]
          · by_cases he : op = "elike:"
            · subst he
              simp [writesOf, h1, h2, hl, hs, ht] at hp
              rcases hp with rfl | rfl <;> simp [writeKeys, singleOps, setOps, searchOps, ht]
            · simp [writesOf, h1, h2, hl, hs, he] at hp
      · by_cases hl : op = "like:"
        · subst hl; simp [writesOf, h1, h2, ht] at hp
        · by_cases hs : op = "slike:"
          · subst hs; simp [writesOf, h1, h2, hl, ht] at hp
          · by_cases he : op = "elike:"
            · subst he; simp [writesOf, h1, h2, hl, hs, ht] at hp
            · simp [writesOf, h1, h2, hl, hs, he] at hp

theorem lastWrite_writesOf_none (P : Parsers) (t : QType) (op : String) (values : List String)
    (m : String) (hm : m ∉ writeKeys t op) :
    lastWrite (writesOf P t op values) m = none := by
  apply lastWrite_all_none
  intro p hp hpm
  exact hm (hpm ▸ writesOf_keys P t op values p hp)

theorem lastWrite_cat_none (P : Parsers) (t : QType) (ovm : List (String × List String))
    (L : List String) (m : String) (h : ∀ o ∈ L, m ∉ writeKeys t o) :
    lastWrite (catWrites (ovmW P t ovm) L) m = none := by
  induction L with
  | nil => rfl
  | cons o tl ih =>
    show lastWrite (ovmW P t ovm o ++ catWrites (ovmW P t ovm) tl) m = none
    rw [lastWrite_append]
    have h1 : lastWrite (ovmW P t ovm o) m = none :=
      lastWrite_writesOf_none P t o _ m (h o (by simp))
    have h2 : lastWrite (catWrites (ovmW P t ovm) tl) m = none :=
      ih (fun o ho => h o (by simp [ho]))
    simp [h1, h2, orO]

theorem lastWrite_cat_unique (P : Parsers) (t : QType) (ovm : List (String × List String))
    (L1 L2 : List String) (κ : String) (m : String)
    (h : ∀ o, o ∈ L1 ∨ o ∈ L2 → m ∉ writeKeys t o) :
    lastWrite (catWrites (ovmW P t ovm) (L1 ++ κ :: L2)) m = lastWrite (ovmW P t ovm κ) m := by
  induction L1 with
  | nil =>
    show lastWrite (ovmW P t ovm κ ++ catWrites (ovmW P t ovm) L2) m = _
    rw [lastWrite_append]
    have h2 : lastWrite (catWrites (ovmW P t ovm) L2) m = none :=
      lastWrite_cat_none P t ovm L2 m (fun o ho => h o (Or.inr ho))
    simp [h2, orO]
  | cons o tl ih =>
    show lastWrite (ovmW P t ovm o ++ catWrites (ovmW P t ovm) (tl ++ κ :: L2)) m = _
    rw [lastWrite_append]
    have h1 : lastWrite (ovmW P t ovm o) m = none :=
      lastWrite_writesOf_none P t o _ m (h o (Or.inl (by simp)))
    rw [ih (fun o2 ho2 => h o2 (by rcases ho2 with h' | h' <;> simp [h']))]
    cases hk : lastWrite (ovmW P t ovm κ) m <;> simp [h1, orO]

theorem lookupOvm_ovmAppend (m : List (String × List String)) (op : String) (vs : List String)
    (k : String) :
    lookupOvm (ovmAppend m op vs) k =
      if k = op then some ((lookupOvm m op).getD [] ++ vs) else lookupOvm m k := by
  induction m with
  | nil =>
    simp only [ovmAppend, lookupOvm]
    by_cases h : k = op
    · subst h; simp [lookupOvm]
    · have h2 : ¬ op = k := fun e => h e.symm
      simp [lookupOvm, h, h2]
  | cons p tl ih =>
    obtain ⟨k0, old⟩ := p
    by_cases h : k0 = op
    · subst h
      simp only [ovmAppend, if_pos rfl, lookupOvm]
      by_cases hk : k0 = k
      · subst hk; simp [lookupOvm]
      · have hk2 : ¬ k = k0 := fun e => hk e.symm
        simp [lookupOvm, hk, hk2]
    · simp only [ovmAppend, if_neg h, lookupOvm, ih]
      by_cases hk : k0 = k
      · subst hk
        have hk2 : ¬ k0 = op := h
        simp [if_neg (fun e : k0 = op => h e)]
      · simp [hk]

theorem lookupOvm_foldl (entries : List (String × List String))
    (m0 : List (String × List String)) (k : String) :
    lookupOvm (entries.foldl (fun m e => ovmAppend m e.1 e.2) m0) k =
      match lookupOvm m0 k with
      | some old => some (old ++ valsFor k entries)
      | none =>
        if entries.any (fun e => e.1 = k) then some (valsFor k entries) else none := by
  induction entries generalizing m0 with
  | nil =>
    cases h : lookupOvm m0 k <;> simp [valsFor, h]
  | cons e tl ih =>
    obtain ⟨k0, vs⟩ := e
    simp only [List.foldl_cons]
    rw [ih]
    rw [lookupOvm_ovmAppend]
    by_cases hk : k = k0
    · subst hk
      cases h : lookupOvm m0 k with
      | some old => simp [h, valsFor, List.any_cons]
      | none => simp [h, valsFor, List.any_cons]
    · have hk2 : ¬ k0 = k := fun e => hk e.symm
      cases h : lookupOvm m0 k with
      | some old => simp [hk, h, valsFor, hk2, List.any_cons]
      | none =>
        rw [if_neg hk]
        simp only [valsFor, List.any_cons, if_neg hk2, List.nil_append]
        rw [decide_eq_false hk2, Bool.false_or]

theorem toOpValueMap_lookup (q : List Char) (k : String) :
    lookupOvm (toOpValueMap q) k =
      if (occList q).any (fun e => e.1 = k) then some (valsFor k (occList q)) else none := by
  rw [toOpValueMap, lookupOvm_foldl]
  rfl

theorem mem_writeKeys_cases (t : QType) (op m : String) (h : m ∈ writeKeys t op) :
    ((op ∈ singleOps ∨ op ∈ setOps) ∧ m = toMOp op) ∨
      (op ∈ searchOps ∧ t = QType.QString ∧ (m = "$regex" ∨ m = "$options")) := by
  unfold writeKeys at h
  by_cases h1 : op ∈ singleOps
  · simp [h1] at h; exact Or.inl ⟨Or.inl h1, h⟩
  · by_cases h2 : op ∈ setOps
    · simp [h1, h2] at h; exact Or.inl ⟨Or.inr h2, h⟩
    · by_cases h3 : op ∈ searchOps
      · by_cases ht : t = QType.QString
        · simp [h1, h2, h3, ht] at h; exact Or.inr ⟨h3, ht, h⟩
        · simp [h1, h2, h3, ht] at h
      · simp [h1, h2, h3] at h

theorem writer_unique (t : QType) (o1 o2 m : String)
    (ho1 : o1 ∈ oplist) (ho2 : o2 ∈ oplist)
    (h1 : m ∈ writeKeys t o1) (h2 : m ∈ writeKeys t o2) (hne : o1 ≠ o2) :
    o1 ∈ searchOps ∧ o2 ∈ searchOps ∧ t = QType.QString := by
  rcases mem_writeKeys_cases t o1 m h1 with ⟨g1, rfl⟩ | ⟨s1, ht, r1⟩
  · rcases mem_writeKeys_cases t o2 _ h2 with ⟨g2, heq⟩ | ⟨s2, ht, r2⟩
    · exact absurd (toMOp_inj o1 ho1 o2 ho2 heq) hne
    · rcases r2 with heq | heq
      · exact absurd heq (toMOp_ne_search_keys o1 ho1).1
      · exact absurd heq (toMOp_ne_search_keys o1 ho1).2
  · rcases mem_writeKeys_cases t o2 m h2 with ⟨g2, rfl⟩ | ⟨s2, _, r2⟩
    · rcases r1 with heq | heq
      · exact absurd heq (toMOp_ne_search_keys o2 ho2).1
      · exact absurd heq (toMOp_ne_search_keys o2 ho2).2
    · exact ⟨s1, s2, ht⟩

theorem lastWrite_singleton (k : String) (v : BVal) (m : String) :
    lastWrite [(k, v)] m = if k = m then some v else none := rfl

theorem lastWrite_map_btyped (L : List TVal) (k m : String) :
    lastWrite (L.map (fun tv => (k, BVal.btyped tv))) m =
      if k = m then L.getLast?.map BVal.btyped else none := by
  induction L with
  | nil => simp [lastWrite]
  | cons tv tl ih =>
    show (match lastWrite (tl.map fun tv => (k, BVal.btyped tv)) m with
      | some v2 => some v2
      | none => if k = m then some (BVal.btyped tv) else none) = _
    rw [ih]
    by_cases hm : k = m
    · subst hm
      cases tl with
      | nil => simp
      | cons t2 tt =>
        have hs : (t2 :: tt).getLast?.isSome := by
          rw [List.getLast?_isSome]; simp
        obtain ⟨x, hx⟩ := Option.isSome_iff_exists.mp hs
        simp [hx, List.getLast?_cons_cons]
    · simp [hm]

theorem sumCnt_perm (C : String → Nat) {O1 O2 : List String} (h : O1.Perm O2) :
    sumCnt C O1 = sumCnt C O2 := by
  induction h with
  | nil => rfl
  | cons x h ih => simp [sumCnt, ih]
  | swap x y l => simp [sumCnt]; omega
  | trans h1 h2 ih1 ih2 => exact ih1.trans ih2

theorem sumCnt_pos (C : String → Nat) (L : List String) (op : String)
    (hop : op ∈ L) (h : 0 < C op) : 0 < sumCnt C L := by
  induction L with
  | nil => simp at hop
  | cons o tl ih =>
    rcases List.mem_cons.mp hop with rfl | hm
    · simp [sumCnt]; omega
    · have := ih hm
      simp [sumCnt]; omega

theorem sumCnt_eq_zero (C : String → Nat) (L : List String) (h : ∀ op ∈ L, C op = 0) :
    sumCnt C L = 0 := by
  induction L with
  | nil => rfl
  | cons o tl ih =>
    have h0 : C o = 0 := h o (by simp)
    have := ih (fun op hop => h op (by simp [hop]))
    simp [sumCnt, h0, this]

theorem ovmKeys_ovmAppend (m : List (String × List String)) (op : String) (vs : List String) :
    ovmKeys (ovmAppend m op vs) =
      if op ∈ ovmKeys m then ovmKeys m else ovmKeys m ++ [op] := by
  induction m with
  | nil => simp [ovmAppend, ovmKeys]
  | cons p tl ih =>
    obtain ⟨k, old⟩ := p
    by_cases h : k = op
    · subst h; simp [ovmAppend, ovmKeys]
    · have h2 : ¬ op = k := fun e => h e.symm
      simp only [ovmAppend, if_neg h]
      have hkeys : ovmKeys ((k, old) :: ovmAppend tl op vs) = k :: ovmKeys (ovmAppend tl op vs) := rfl
      rw [hkeys, ih]
      simp only [ovmKeys, List.map_cons, List.mem_cons]
      by_cases hm : op ∈ List.map Prod.fst tl
      · simp [hm, h2]
      · simp [hm, h2]

theorem keys_foldl_nodup (entries : List (String × List String))
    (m0 : List (String × List String)) (h : (ovmKeys m0).Nodup) :
    (ovmKeys (entries.foldl (fun m e => ovmAppend m e.1 e.2) m0)).Nodup := by
  induction entries generalizing m0 with
  | nil => exact h
  | cons e tl ih =>
    simp only [List.foldl_cons]
    apply ih
    rw [ovmKeys_ovmAppend]
    by_cases hm : e.1 ∈ ovmKeys m0
    · simp [hm, h]
    · simp [hm, List.nodup_append, h, List.disjoint_singleton]

theorem toOpValueMap_keys_nodup (q : List Char) : (ovmKeys (toOpValueMap q)).Nodup :=
  keys_foldl_nodup _ _ (by simp [ovmKeys])

theorem keys_foldl_sub (entries : List (String × List String))
    (m0 : List (String × List String)) :
    ∀ k ∈ ovmKeys (entries.foldl (fun m e => ovmAppend m e.1 e.2) m0),
      k ∈ ovmKeys m0 ∨ ∃ e ∈ entries, e.1 = k := by
  induction entries generalizing m0 with
  | nil => intro k hk; exact Or.inl hk
  | cons e tl ih =>
    intro k hk
    simp only [List.foldl_cons] at hk
    rcases ih _ k hk with hm | ⟨e2, he2, rfl⟩
    · rw [ovmKeys_ovmAppend] at hm
      by_cases hin : e.1 ∈ ovmKeys m0
      · rw [if_pos hin] at hm; exact Or.inl hm
      · rw [if_neg hin] at hm
        rcases List.mem_append.mp hm with hm | hm
        · exact Or.inl hm
        · simp at hm
          exact Or.inr ⟨e, by simp, hm.symm⟩
    · exact Or.inr ⟨e2, by simp [he2], rfl⟩

theorem findOpsAux_ops (s : List Char) :
    ∀ (pos skip : Nat), ∀ e ∈ findOpsAux s pos skip, e.2.2 ∈ oplist := by
  induction s with
  | nil =>
    intro pos skip e he
    simp [findOpsAux] at he
  | cons c rest ih =>
    intro pos skip e he
    cases skip with
    | zero =>
      rw [findOpsAux] at he
      cases hop : opAt (c :: rest) with
      | some op =>
        rw [hop] at he
        rcases List.mem_cons.mp he with rfl | he2
        · exact List.mem_of_find?_eq_some hop
        · exact ih _ _ e he2
      | none =>
        rw [hop] at he
        exact ih _ _ e he
    | succ k =>
      rw [findOpsAux] at he
      exact ih _ _ e he

theorem findOps_ops (q : List Char) (pos : Nat) :
    ∀ e ∈ findOps q pos, e.2.2 ∈ oplist :=
  findOpsAux_ops q pos 0

theorem segsOf_ops (q : List Char) (ois : List (Nat × Nat × String)) :
    ∀ e ∈ segsOf q ois, ∃ tr ∈ ois, e.1 = tr.2.2 := by
  induction ois with
  | nil => intro e he; simp [segsOf] at he
  | cons tr tl ih =>
    intro e he
    obtain ⟨s, en, op⟩ := tr
    rcases List.mem_cons.mp he with rfl | he2
    · exact ⟨(s, en, op), by simp, rfl⟩
    · obtain ⟨tr2, htr2, heq⟩ := ih e he2
      exact ⟨tr2, by simp [htr2], heq⟩

theorem occList_ops (q : List Char) : ∀ e ∈ occList q, e.1 ∈ oplist := by
  intro e he
  unfold occList at he
  cases hf : findOps q 0 with
  | nil =>
    rw [hf] at he
    simp at he
    simp [he]
    decide
  | cons tr tl =>
    rw [hf] at he
    rcases List.mem_append.mp he with hl | hr
    · by_cases h0 : 0 < tr.1
      · obtain ⟨s, en, op⟩ := tr
        simp only at h0
        rw [if_pos h0] at hl
        simp at hl
        simp [hl]
        decide
      · obtain ⟨s, en, op⟩ := tr
        simp only at h0
        rw [if_neg h0] at hl
        simp at hl
    · obtain ⟨tr2, htr2, heq⟩ := segsOf_ops q _ e hr
      rw [heq]
      exact findOps_ops q 0 tr2 (hf ▸ htr2)

theorem toOpValueMap_keys_sub (q : List Char) :
    ∀ k ∈ ovmKeys (toOpValueMap q), k ∈ oplist := by
  intro k hk
  rcases keys_foldl_sub (occList q) [] k hk with hm | ⟨e, he, rfl⟩
  · simp [ovmKeys] at hm
  · exact occList_ops q e he

/-! Disjointness of the three operator groups (decidable over the fixed
vocabulary). -/

theorem setOps_not_single : ∀ o ∈ setOps, o ∉ singleOps := by decide

theorem singleOps_not_search : ∀ o ∈ singleOps, o ∉ searchOps := by decide

theorem setOps_not_search : ∀ o ∈ setOps, o ∉ searchOps := by decide

theorem writeKeys_grp (t : QType) (κ : String) (h : κ ∈ singleOps ∨ κ ∈ setOps) :
    writeKeys t κ = [toMOp κ] := by
  rcases h with h | h
  · simp [writeKeys, h]
  · simp [writeKeys, h, setOps_not_single κ h]

theorem lastWrite_cat_of_writer (P : Parsers) (t : QType) (q : List Char)
    (order : List String) (κ m : String)
    (hvalid : order.Perm (ovmKeys (toOpValueMap q)))
    (hκmem : κ ∈ ovmKeys (toOpValueMap q))
    (huniq : ∀ o ∈ ovmKeys (toOpValueMap q), m ∈ writeKeys t o → o = κ) :
    lastWrite (catWrites (ovmW P t (toOpValueMap q)) order) m =
      lastWrite (ovmW P t (toOpValueMap q) κ) m := by
  have hκord : κ ∈ order := hvalid.mem_iff.mpr hκmem
  obtain ⟨L1, L2, rfl⟩ := List.append_of_mem hκord
  have hnd : (L1 ++ κ :: L2).Nodup :=
    (List.Perm.nodup_iff hvalid).mpr (toOpValueMap_keys_nodup q)
  apply lastWrite_cat_unique
  intro o ho hwk
  have homem : o ∈ L1 ++ κ :: L2 := by rcases ho with h | h <;> simp [h]
  have hokeys : o ∈ ovmKeys (toOpValueMap q) := hvalid.mem_iff.mp homem
  have hoκ : o = κ := huniq o hokeys hwk
  subst hoκ
  rcases ho with h | h
  · exact (List.nodup_append.mp hnd).2.2 h (by simp)
  · exact (List.nodup_cons.mp (List.nodup_append.mp hnd).2.1).1 h

theorem huniq_toMOp (t : QType) (q : List Char) (κ : String)
    (hκ : κ ∈ singleOps ∨ κ ∈ setOps) :
    ∀ o ∈ ovmKeys (toOpValueMap q), toMOp κ ∈ writeKeys t o → o = κ := by
  intro o ho hom
  by_contra hne
  have hκpl : κ ∈ oplist := by
    rcases hκ with h | h
    · exact singleOps_sub κ h
    · exact setOps_sub κ h
  have hκwk : toMOp κ ∈ writeKeys t κ := by rw [writeKeys_grp t κ hκ]; simp
  obtain ⟨hos, hκs, _⟩ :=
    writer_unique t o κ (toMOp κ) (toOpValueMap_keys_sub q o ho) hκpl hom hκwk hne
  rcases hκ with h | h
  · exact singleOps_not_search κ h hκs
  · exact setOps_not_search κ h hκs

theorem huniq_search (q : List Char) (κ m : String) (_hκ : κ ∈ searchOps)
    (honly : ∀ κ2 ∈ searchOps, κ2 ≠ κ → lookupOvm (toOpValueMap q) κ2 = none)
    (hm : m = "$regex" ∨ m = "$options") :
    ∀ o ∈ ovmKeys (toOpValueMap q), m ∈ writeKeys QType.QString o → o = κ := by
  intro o ho hom
  rcases mem_writeKeys_cases _ o m hom with ⟨_, rfl⟩ | ⟨hos, _, _⟩
  · rcases hm with heq | heq
    · exact absurd heq (toMOp_ne_search_keys o (toOpValueMap_keys_sub q o ho)).1
    · exact absurd heq (toMOp_ne_search_keys o (toOpValueMap_keys_sub q o ho)).2
  · by_contra hne
    have hnone := honly o hos hne
    have hsome := (lookupOvm_isSome_iff _ o).mpr ho
    simp [hnone] at hsome

theorem searchOps_not_single : ∀ o ∈ searchOps, o ∉ singleOps := by decide

theorem searchOps_not_set : ∀ o ∈ searchOps, o ∉ setOps := by decide

theorem writesOf_single_string (P : Parsers) (κ : String) (vs : List String)
    (hκ : κ ∈ singleOps) :
    writesOf P QType.QString κ vs = [(toMOp κ, BVal.bstr (joinComma vs))] := by
  simp [writesOf, hκ]

theorem writesOf_single_typed (P : Parsers) (t : QType) (κ : String) (vs : List String)
    (hκ : κ ∈ singleOps) (ht : t ≠ QType.QString) :
    writesOf P t κ vs = (vs.filterMap (parseFor P t)).map (fun tv => (toMOp κ, BVal.btyped tv)) := by
  simp [writesOf, hκ, ht]

theorem writesOf_set_string (P : Parsers) (κ : String) (vs : List String)
    (hκ : κ ∈ setOps) :
    writesOf P QType.QString κ vs = [(toMOp κ, BVal.bstrList vs)] := by
  simp [writesOf, setOps_not_single κ hκ, hκ]

theorem writesOf_set_typed (P : Parsers) (t : QType) (κ : String) (vs : List String)
    (hκ : κ ∈ setOps) (ht : t ≠ QType.QString) :
    writesOf P t κ vs =
      if vs.filterMap (parseFor P t) = [] then []
      else [(toMOp κ, BVal.btypedList (vs.filterMap (parseFor P t)))] := by
  simp [writesOf, setOps_not_single κ hκ, hκ, ht]

theorem cntOf_string (P : Parsers) (κ : String) (vs : List String) (hκpl : κ ∈ oplist) :
    cntOf P QType.QString κ vs = 1 := by
  rcases oplist_split κ hκpl with h | h | h
  · simp [cntOf, h]
  · simp [cntOf, setOps_not_single κ h, h]
  · simp [cntOf, searchOps_not_single κ h, searchOps_not_set κ h, h]

theorem cntOf_single_typed (P : Parsers) (t : QType) (κ : String) (vs : List String)
    (hκ : κ ∈ singleOps) (ht : t ≠ QType.QString) :
    cntOf P t κ vs = (vs.filterMap (parseFor P t)).length := by
  simp [cntOf, hκ, ht]

theorem cntOf_set_typed (P : Parsers) (t : QType) (κ : String) (vs : List String)
    (hκ : κ ∈ setOps) (ht : t ≠ QType.QString) :
    cntOf P t κ vs = if vs.filterMap (parseFor P t) = [] then 0 else 1 := by
  simp [cntOf, setOps_not_single κ hκ, hκ, ht]

theorem cntOf_search_typed (P : Parsers) (t : QType) (κ : String) (vs : List String)
    (hκ : κ ∈ searchOps) (ht : t ≠ QType.QString) :
    cntOf P t κ vs = 0 := by
  simp [cntOf, searchOps_not_single κ hκ, searchOps_not_set κ hκ, hκ, ht]

theorem lookupOvm_mem (m : List (String × List String)) (k : String) (vs : List String)
    (h : lookupOvm m k = some vs) : (k, vs) ∈ m := by
  induction m with
  | nil => simp [lookupOvm] at h
  | cons p tl ih =>
    obtain ⟨k0, vs0⟩ := p
    by_cases hk : k0 = k
    · subst hk
      simp [lookupOvm] at h
      simp [h]
    · simp only [lookupOvm, if_neg hk] at h
      exact List.mem_cons_of_mem _ (ih h)

theorem ApplyFilterOrder_other (P : Parsers) (t : QType) (key qvalue : String)
    (order : List String) (out : QResult) :
    (ApplyFilterOrder P t key qvalue order out).Projection = out.Projection ∧
    (ApplyFilterOrder P t key qvalue order out).Srt = out.Srt ∧
    (ApplyFilterOrder P t key qvalue order out).Limit = out.Limit ∧
    (ApplyFilterOrder P t key qvalue order out).Skip = out.Skip ∧
    (ApplyFilterOrder P t key qvalue order out).Meta = out.Meta := by
  simp only [ApplyFilterOrder]
  split <;> simp

theorem ApplyFilterOrder_filter_other (P : Parsers) (t : QType) (key qvalue : String)
    (order : List String) (out : QResult) (k : String) (hk : k ≠ key) :
    (ApplyFilterOrder P t key qvalue order out).Filter k = out.Filter k := by
  simp only [ApplyFilterOrder]
  split
  · simp [fupd, hk]
  · rfl

theorem AFO_frag (P : Parsers) (t : QType) (key qvalue : String)
    (order : List String) (out : QResult)
    (hvalid : validOrder qvalue order) (hout : out.Filter key = none)
    (frag : String → Option BVal)
    (hfrag : (ApplyFilterOrder P t key qvalue order out).Filter key = some frag) (m : String) :
    frag m = lastWrite (catWrites (ovmW P t (toOpValueMap qvalue.toList)) order) m := by
  rw [ApplyFilterOrder_eq P t key qvalue order out hvalid] at hfrag
  by_cases h : 0 < sumCnt (ovmC P t (toOpValueMap qvalue.toList)) order
  · rw [if_pos h] at hfrag
    simp only [fupd, if_pos rfl] at hfrag
    have := Option.some.inj hfrag
    rw [← this, applyWrites_empty]
  · rw [if_neg h] at hfrag
    rw [hout] at hfrag
    cases hfrag

theorem AFO_present (P : Parsers) (t : QType) (key qvalue : String)
    (order : List String) (out : QResult)
    (hvalid : validOrder qvalue order) (κ : String)
    (hκmem : κ ∈ ovmKeys (toOpValueMap qvalue.toList))
    (hpos : 0 < ovmC P t (toOpValueMap qvalue.toList) κ) :
    ∃ frag, (ApplyFilterOrder P t key qvalue order out).Filter key = some frag := by
  rw [ApplyFilterOrder_eq P t key qvalue order out hvalid]
  have hord : κ ∈ order := hvalid.mem_iff.mpr hκmem
  rw [if_pos (sumCnt_pos _ order κ hord hpos)]
  refine ⟨applyWrites (fun _ => none) (catWrites (ovmW P t (toOpValueMap qvalue.toList)) order), ?_⟩
  simp [fupd]

theorem AFO_absent (P : Parsers) (t : QType) (key qvalue : String)
    (order : List String) (out : QResult)
    (hvalid : validOrder qvalue order)
    (hzero : ∀ e ∈ toOpValueMap qvalue.toList, cntOf P t e.1 e.2 = 0) :
    ApplyFilterOrder P t key qvalue order out = out := by
  rw [ApplyFilterOrder_eq P t key qvalue order out hvalid]
  have hz : sumCnt (ovmC P t (toOpValueMap qvalue.toList)) order = 0 := by
    apply sumCnt_eq_zero
    intro op hop
    have hmem : op ∈ ovmKeys (toOpValueMap qvalue.toList) := hvalid.mem_iff.mp hop
    obtain ⟨vs, hvs⟩ := Option.isSome_iff_exists.mp ((lookupOvm_isSome_iff _ _).mpr hmem)
    have h2 : ovmC P t (toOpValueMap qvalue.toList) op = cntOf P t op vs := by
      unfold ovmC; rw [hvs]; rfl
    rw [h2]
    exact hzero (op, vs) (lookupOvm_mem _ _ _ hvs)
  have hneg : ¬ 0 < sumCnt (ovmC P t (toOpValueMap qvalue.toList)) order := by omega
  rw [if_neg hneg]

/-! The claim theorems. -/

/-- C1: for a typed (non-string) field, every value string is parsed
independently against the field's type and a failing value contributes
nothing (the fragment's operand for a set operator is exactly the
successfully parsed subset, emitted only when non-empty; a single-valued
operator all of whose values fail is absent from the fragment); and when no
operator entry of the value produced any usable value, the field's key is
entirely absent from the filter.  Stated for any parser bundle and any map
iteration order Go might choose. -/
theorem C1_typed_drop_silently (P : Parsers) (t : QType) (key qvalue : String)
    (order : List String) (out : QResult)
    (ht : t ≠ QType.QString) (hvalid : validOrder qvalue order)
    (hout : out.Filter key = none) :
    (∀ κ ∈ setOps, ∀ vs, lookupOvm (toOpValueMap qvalue.toList) κ = some vs →
      ∀ frag, (ApplyFilterOrder P t key qvalue order out).Filter key = some frag →
        frag (toMOp κ) = (if vs.filterMap (parseFor P t) = [] then none
          else some (BVal.btypedList (vs.filterMap (parseFor P t))))) ∧
    (∀ κ ∈ singleOps, ∀ vs, lookupOvm (toOpValueMap qvalue.toList) κ = some vs →
      vs.filterMap (parseFor P t) = [] →
      ∀ frag, (ApplyFilterOrder P t key qvalue order out).Filter key = some frag →
        frag (toMOp κ) = none) ∧
    ((∀ e ∈ toOpValueMap qvalue.toList, cntOf P t e.1 e.2 = 0) →
      (ApplyFilterOrder P t key qvalue order out).Filter key = none) := by
  refine ⟨?_, ?_, ?_⟩
  · intro κ hκ vs hvs frag hfrag
    rw [AFO_frag P t key qvalue order out hvalid hout frag hfrag]
    have hκmem : κ ∈ ovmKeys (toOpValueMap qvalue.toList) :=
      (lookupOvm_isSome_iff _ _).mp (by rw [hvs]; rfl)
    rw [lastWrite_cat_of_writer P t _ order κ _ hvalid hκmem
      (huniq_toMOp t _ κ (Or.inr hκ))]
    have hW : ovmW P t (toOpValueMap qvalue.toList) κ = writesOf P t κ vs := by
      unfold ovmW; rw [hvs]; rfl
    rw [hW, writesOf_set_typed P t κ vs hκ ht]
    by_cases hL : vs.filterMap (parseFor P t) = []
    · simp [hL, lastWrite]
    · rw [if_neg hL, if_neg hL, lastWrite_singleton, if_pos rfl]
  · intro κ hκ vs hvs hL frag hfrag
    rw [AFO_frag P t key qvalue order out hvalid hout frag hfrag]
    have hκmem : κ ∈ ovmKeys (toOpValueMap qvalue.toList) :=
      (lookupOvm_isSome_iff _ _).mp (by rw [hvs]; rfl)
    rw [lastWrite_cat_of_writer P t _ order κ _ hvalid hκmem
      (huniq_toMOp t _ κ (Or.inl hκ))]
    have hW : ovmW P t (toOpValueMap qvalue.toList) κ = writesOf P t κ vs := by
      unfold ovmW; rw [hvs]; rfl
    rw [hW, writesOf_single_typed P t κ vs hκ ht, hL]
    rfl
  · intro hzero
    rw [AFO_absent P t key qvalue order out hvalid hzero, hout]

/-- C1 witness: on the integer field value in:1,zz,2,nin:xx the set operator
in keeps exactly the parsed subset 1,2, the set operator nin (whose only
value fails to parse) is absent, and on gt:zz (no usable value at all) the
field key is absent from the filter. -/
theorem C1_witness :
    (ApplyFilterOrder witnessParsers QType.QInt "count" "gt:zz" ["gt:"] NewQResult).Filter "count" = none ∧
    (∃ frag, (ApplyFilterOrder witnessParsers QType.QInt "count" "in:1,zz,2,nin:xx" ["in:", "nin:"] NewQResult).Filter "count" = some frag ∧
      frag "$in" = some (BVal.btypedList [TVal.vInt 1, TVal.vInt 2]) ∧
      frag "$nin" = none) := by
  constructor
  · exact (C1_typed_drop_silently witnessParsers QType.QInt "count" "gt:zz" ["gt:"]
      NewQResult (by decide) (by decide) rfl).2.2 (by decide)
  · obtain ⟨frag, hfrag⟩ := AFO_present witnessParsers QType.QInt "count" "in:1,zz,2,nin:xx"
      ["in:", "nin:"] NewQResult (by decide) "in:" (by decide) (by decide)
    refine ⟨frag, hfrag, ?_, ?_⟩
    · have h := (C1_typed_drop_silently witnessParsers QType.QInt "count" "in:1,zz,2,nin:xx"
        ["in:", "nin:"] NewQResult (by decide) (by decide) rfl).1 "in:" (by decide)
        ["1", "zz", "2"] (by decide) frag hfrag
      exact h.trans (by decide)
    · have h := (C1_typed_drop_silently witnessParsers QType.QInt "count" "in:1,zz,2,nin:xx"
        ["in:", "nin:"] NewQResult (by decide) (by decide) rfl).1 "nin:" (by decide)
        ["xx"] (by decide) frag hfrag
      exact h.trans (by decide)

/-- C10: for a typed field and a single-valued comparison operator with more
than one successfully parsing value, the emitted operand is the last
successfully parsing value in list order (each later success overwrites the
stored operand). -/
theorem C10_last_success_overwrites (P : Parsers) (t : QType) (key qvalue : String)
    (order : List String) (out : QResult)
    (ht : t ≠ QType.QString) (hvalid : validOrder qvalue order)
    (hout : out.Filter key = none) :
    ∀ κ ∈ singleOps, ∀ vs, lookupOvm (toOpValueMap qvalue.toList) κ = some vs →
    1 < (vs.filterMap (parseFor P t)).length →
    ∃ frag, (ApplyFilterOrder P t key qvalue order out).Filter key = some frag ∧
      frag (toMOp κ) = (vs.filterMap (parseFor P t)).getLast?.map BVal.btyped := by
  intro κ hκ vs hvs hlen
  have hκmem : κ ∈ ovmKeys (toOpValueMap qvalue.toList) :=
    (lookupOvm_isSome_iff _ _).mp (by rw [hvs]; rfl)
  have hpos : 0 < ovmC P t (toOpValueMap qvalue.toList) κ := by
    have h2 : ovmC P t (toOpValueMap qvalue.toList) κ = cntOf P t κ vs := by
      unfold ovmC; rw [hvs]; rfl
    rw [h2, cntOf_single_typed P t κ vs hκ ht]
    omega
  obtain ⟨frag, hfrag⟩ := AFO_present P t key qvalue order out hvalid κ hκmem hpos
  refine ⟨frag, hfrag, ?_⟩
  rw [AFO_frag P t key qvalue order out hvalid hout frag hfrag]
  rw [lastWrite_cat_of_writer P t _ order κ _ hvalid hκmem (huniq_toMOp t _ κ (Or.inl hκ))]
  have hW : ovmW P t (toOpValueMap qvalue.toList) κ = writesOf P t κ vs := by
    unfold ovmW; rw [hvs]; rfl
  rw [hW, writesOf_single_typed P t κ vs hκ ht, lastWrite_map_btyped, if_pos rfl]

/-- C10 witness: on the integer field value eq:1,2,zz,3 three values parse
and the stored equality operand is the last one, 3. -/
theorem C10_witness :
    ∃ frag, (ApplyFilterOrder witnessParsers QType.QInt "count" "eq:1,2,zz,3" ["eq:"] NewQResult).Filter "count" = some frag ∧
      frag "$eq" = some (BVal.btyped (TVal.vInt 3)) := by
  obtain ⟨frag, hfrag, hval⟩ := C10_last_success_overwrites witnessParsers QType.QInt "count"
    "eq:1,2,zz,3" ["eq:"] NewQResult (by decide) (by decide) rfl "eq:" (by decide)
    ["1", "2", "zz", "3"] (by decide) (by decide)
  exact ⟨frag, hfrag, hval.trans (by decide)⟩

theorem mk_append (a b : List Char) : String.mk a ++ String.mk b = String.mk (a ++ b) := rfl

theorem splitComma_ne_nil (l : List Char) : splitComma l ≠ [] := by
  cases l with
  | nil => simp [splitComma]
  | cons c rest =>
    by_cases h : c = ','
    · simp [splitComma, h]
    · simp only [splitComma, if_neg h]
      split <;> simp

theorem joinComma_splitComma (l : List Char) :
    joinComma ((splitComma l).map String.mk) = String.mk l := by
  induction l with
  | nil => rfl
  | cons c rest ih =>
    obtain ⟨h0, t0, hsplit⟩ : ∃ h0 t0, splitComma rest = h0 :: t0 := by
      cases hs : splitComma rest with
      | nil => exact absurd hs (splitComma_ne_nil rest)
      | cons a b => exact ⟨a, b, rfl⟩
    by_cases h : c = ','
    · subst h
      show joinComma ((([] : List Char) :: splitComma rest).map String.mk) = String.mk (',' :: rest)
      rw [hsplit]
      rw [hsplit] at ih
      show String.mk [] ++ "," ++ joinComma ((h0 :: t0).map String.mk) = String.mk (',' :: rest)
      have hmap : (h0 :: t0).map String.mk = String.mk h0 :: t0.map String.mk := rfl
      rw [hmap] at ih ⊢
      rw [ih]
      rfl
    · have hstep : splitComma (c :: rest) = (c :: h0) :: t0 := by
        simp only [splitComma, if_neg h, hsplit]
      rw [hstep]
      rw [hsplit] at ih
      cases t0 with
      | nil =>
        have hh : String.mk h0 = String.mk rest := ih
        have hdata : h0 = rest := congrArg String.data hh
        subst hdata
        rfl
      | cons s1 ss =>
        have ih2 : String.mk h0 ++ "," ++ joinComma ((s1 :: ss).map String.mk)
            = String.mk rest := ih
        show String.mk (c :: h0) ++ "," ++ joinComma ((s1 :: ss).map String.mk)
            = String.mk (c :: rest)
        have e1 : String.mk (c :: h0) = String.mk [c] ++ String.mk h0 := rfl
        rw [e1, String.append_assoc, String.append_assoc,
          ← String.append_assoc (String.mk h0), ih2]
        rfl

theorem joinComma_splitVals (s : List Char) :
    joinComma (splitVals s) = String.mk (trimSuffixComma s) := by
  unfold splitVals
  exact joinComma_splitComma _

theorem toOpValueMap_noop (q : List Char) (h : findOps q 0 = []) :
    toOpValueMap q = [("eq:", splitVals q)] := by
  unfold toOpValueMap occList
  rw [h]
  rfl

theorem writesOf_search_string (P : Parsers) (κ : String) (vs : List String)
    (hκ : κ ∈ searchOps) :
    writesOf P QType.QString κ vs =
      [("$regex", BVal.bstr (
        if κ = "slike:" then "^" ++ quoteMeta (joinComma vs)
        else if κ = "elike:" then quoteMeta (joinComma vs) ++ "$"
        else quoteMeta (joinComma vs))), ("$options", BVal.bstr "i")] := by
  have h1 := searchOps_not_single κ hκ
  have h2 := searchOps_not_set κ hκ
  have h3 : κ = "like:" ∨ κ = "slike:" ∨ κ = "elike:" := by
    simpa [searchOps] using hκ
  rcases h3 with rfl | rfl | rfl <;> simp [writesOf, h1, h2]

theorem lastWrite_searchpair_regex (X Y : BVal) :
    lastWrite [("$regex", X), ("$options", Y)] "$regex" = some X := rfl

theorem lastWrite_searchpair_options (X Y : BVal) :
    lastWrite [("$regex", X), ("$options", Y)] "$options" = some Y := rfl

/-- C8: for a string-typed field the single-valued comparison operators emit
the full ordered value list rejoined with commas, verbatim; with no operator
token present in the raw value, the fragment is an equality predicate whose
operand is the raw value after trimming one trailing comma; and the set
operators keep each entry as a distinct string. -/
theorem C8_string_operands_verbatim (P : Parsers) (key qvalue : String)
    (order : List String) (out : QResult)
    (hvalid : validOrder qvalue order) (hout : out.Filter key = none) :
    (∀ κ ∈ singleOps, ∀ vs, lookupOvm (toOpValueMap qvalue.toList) κ = some vs →
      ∃ frag, (ApplyFilterOrder P QType.QString key qvalue order out).Filter key = some frag ∧
        frag (toMOp κ) = some (BVal.bstr (joinComma vs))) ∧
    (findOps qvalue.toList 0 = [] →
      ∃ frag, (ApplyFilterOrder P QType.QString key qvalue order out).Filter key = some frag ∧
        frag "$eq" = some (BVal.bstr (String.mk (trimSuffixComma qvalue.toList)))) ∧
    (∀ κ ∈ setOps, ∀ vs, lookupOvm (toOpValueMap qvalue.toList) κ = some vs →
      ∃ frag, (ApplyFilterOrder P QType.QString key qvalue order out).Filter key = some frag ∧
        frag (toMOp κ) = some (BVal.bstrList vs)) := by
  have main1 : ∀ κ ∈ singleOps, ∀ vs, lookupOvm (toOpValueMap qvalue.toList) κ = some vs →
      ∃ frag, (ApplyFilterOrder P QType.QString key qvalue order out).Filter key = some frag ∧
        frag (toMOp κ) = some (BVal.bstr (joinComma vs)) := by
    intro κ hκ vs hvs
    have hκmem : κ ∈ ovmKeys (toOpValueMap qvalue.toList) :=
      (lookupOvm_isSome_iff _ _).mp (by rw [hvs]; rfl)
    have hpos : 0 < ovmC P QType.QString (toOpValueMap qvalue.toList) κ := by
      have h2 : ovmC P QType.QString (toOpValueMap qvalue.toList) κ = cntOf P QType.QString κ vs := by
        unfold ovmC; rw [hvs]; rfl
      rw [h2, cntOf_string P κ vs (singleOps_sub κ hκ)]
      omega
    obtain ⟨frag, hfrag⟩ := AFO_present P QType.QString key qvalue order out hvalid κ hκmem hpos
    refine ⟨frag, hfrag, ?_⟩
    rw [AFO_frag P QType.QString key qvalue order out hvalid hout frag hfrag]
    rw [lastWrite_cat_of_writer P QType.QString _ order κ _ hvalid hκmem
      (huniq_toMOp QType.QString _ κ (Or.inl hκ))]
    have hW : ovmW P QType.QString (toOpValueMap qvalue.toList) κ = writesOf P QType.QString κ vs := by
      unfold ovmW; rw [hvs]; rfl
    rw [hW, writesOf_single_string P κ vs hκ, lastWrite_singleton, if_pos rfl]
  refine ⟨main1, ?_, ?_⟩
  · intro hnoop
    have hovm : toOpValueMap qvalue.toList = [("eq:", splitVals qvalue.toList)] :=
      toOpValueMap_noop _ hnoop
    have hlook : lookupOvm (toOpValueMap qvalue.toList) "eq:" = some (splitVals qvalue.toList) := by
      rw [hovm]; rfl
    obtain ⟨frag, hfrag, hval⟩ := main1 "eq:" (by decide) (splitVals qvalue.toList) hlook
    refine ⟨frag, hfrag, ?_⟩
    rw [joinComma_splitVals] at hval
    exact hval
  · intro κ hκ vs hvs
    have hκmem : κ ∈ ovmKeys (toOpValueMap qvalue.toList) :=
      (lookupOvm_isSome_iff _ _).mp (by rw [hvs]; rfl)
    have hpos : 0 < ovmC P QType.QString (toOpValueMap qvalue.toList) κ := by
      have h2 : ovmC P QType.QString (toOpValueMap qvalue.toList) κ = cntOf P QType.QString κ vs := by
        unfold ovmC; rw [hvs]; rfl
      rw [h2, cntOf_string P κ vs (setOps_sub κ hκ)]
      omega
    obtain ⟨frag, hfrag⟩ := AFO_present P QType.QString key qvalue order out hvalid κ hκmem hpos
    refine ⟨frag, hfrag, ?_⟩
    rw [AFO_frag P QType.QString key qvalue order out hvalid hout frag hfrag]
    rw [lastWrite_cat_of_writer P QType.QString _ order κ _ hvalid hκmem
      (huniq_toMOp QType.QString _ κ (Or.inr hκ))]
    have hW : ovmW P QType.QString (toOpValueMap qvalue.toList) κ = writesOf P QType.QString κ vs := by
      unfold ovmW; rw [hvs]; rfl
    rw [hW, writesOf_set_string P κ vs hκ, lastWrite_singleton, if_pos rfl]

/-- C8 witness: gte:a,b stores the literal string a,b; the operatorless value
x,y, stores the equality operand x,y (trailing comma trimmed); in:a,b stores
the distinct strings a and b. -/
theorem C8_witness :
    (∃ frag, (ApplyFilterOrder witnessParsers QType.QString "name" "gte:a,b" ["gte:"] NewQResult).Filter "name" = some frag ∧
      frag "$gte" = some (BVal.bstr "a,b")) ∧
    (∃ frag, (ApplyFilterOrder witnessParsers QType.QString "name" "x,y," ["eq:"] NewQResult).Filter "name" = some frag ∧
      frag "$eq" = some (BVal.bstr "x,y")) ∧
    (∃ frag, (ApplyFilterOrder witnessParsers QType.QString "name" "in:a,b" ["in:"] NewQResult).Filter "name" = some frag ∧
      frag "$in" = some (BVal.bstrList ["a", "b"])) := by
  refine ⟨?_, ?_, ?_⟩
  · obtain ⟨frag, hfrag, hval⟩ := (C8_string_operands_verbatim witnessParsers "name" "gte:a,b"
      ["gte:"] NewQResult (by decide) rfl).1 "gte:" (by decide) ["a", "b"] (by decide)
    exact ⟨frag, hfrag, hval.trans (by decide)⟩
  · obtain ⟨frag, hfrag, hval⟩ := (C8_string_operands_verbatim witnessParsers "name" "x,y,"
      ["eq:"] NewQResult (by decide) rfl).2.1 (by decide)
    exact ⟨frag, hfrag, hval.trans (by decide)⟩
  · obtain ⟨frag, hfrag, hval⟩ := (C8_string_operands_verbatim witnessParsers "name" "in:a,b"
      ["in:"] NewQResult (by decide) rfl).2.2 "in:" (by decide) ["a", "b"] (by decide)
    exact ⟨frag, hfrag, hval⟩

/-- C5: for a string-typed field whose value uses exactly one search operator,
the fragment's regex is the value list rejoined with commas with every
regular-expression metacharacter escaped, anchored with a leading caret for
slike (starts with), a trailing dollar for elike (ends with), unanchored for
like (contains), and the case-insensitive option i is always set. -/
theorem C5_search_regex_escaped (P : Parsers) (key qvalue : String)
    (order : List String) (out : QResult)
    (hvalid : validOrder qvalue order) (hout : out.Filter key = none) :
    ∀ κ ∈ searchOps, ∀ vs, lookupOvm (toOpValueMap qvalue.toList) κ = some vs →
    (∀ κ2 ∈ searchOps, κ2 ≠ κ → lookupOvm (toOpValueMap qvalue.toList) κ2 = none) →
    ∃ frag, (ApplyFilterOrder P QType.QString key qvalue order out).Filter key = some frag ∧
      frag "$regex" = some (BVal.bstr (
        if κ = "slike:" then "^" ++ quoteMeta (joinComma vs)
        else if κ = "elike:" then quoteMeta (joinComma vs) ++ "$"
        else quoteMeta (joinComma vs))) ∧
      frag "$options" = some (BVal.bstr "i") := by
  intro κ hκ vs hvs honly
  have hκmem : κ ∈ ovmKeys (toOpValueMap qvalue.toList) :=
    (lookupOvm_isSome_iff _ _).mp (by rw [hvs]; rfl)
  have hpos : 0 < ovmC P QType.QString (toOpValueMap qvalue.toList) κ := by
    have h2 : ovmC P QType.QString (toOpValueMap qvalue.toList) κ = cntOf P QType.QString κ vs := by
      unfold ovmC; rw [hvs]; rfl
    rw [h2, cntOf_string P κ vs (searchOps_sub κ hκ)]
    omega
  obtain ⟨frag, hfrag⟩ := AFO_present P QType.QString key qvalue order out hvalid κ hκmem hpos
  have hW : ovmW P QType.QString (toOpValueMap qvalue.toList) κ = writesOf P QType.QString κ vs := by
    unfold ovmW; rw [hvs]; rfl
  refine ⟨frag, hfrag, ?_, ?_⟩
  · rw [AFO_frag P QType.QString key qvalue order out hvalid hout frag hfrag]
    rw [lastWrite_cat_of_writer P QType.QString _ order κ _ hvalid hκmem
      (huniq_search _ κ _ hκ honly (Or.inl rfl))]
    rw [hW, writesOf_search_string P κ vs hκ, lastWrite_searchpair_regex]
  · rw [AFO_frag P QType.QString key qvalue order out hvalid hout frag hfrag]
    rw [lastWrite_cat_of_writer P QType.QString _ order κ _ hvalid hκmem
      (huniq_search _ κ _ hκ honly (Or.inr rfl))]
    rw [hW, writesOf_search_string P κ vs hκ, lastWrite_searchpair_options]

/-- C5 witness: slike:Jo.hn produces the anchored, dot-escaped pattern
together with the case-insensitive option (the spec's scenario B). -/
theorem C5_witness :
    ∃ frag, (ApplyFilterOrder witnessParsers QType.QString "name" "slike:Jo.hn" ["slike:"] NewQResult).Filter "name" = some frag ∧
      frag "$regex" = some (BVal.bstr "^Jo\\.hn") ∧
      frag "$options" = some (BVal.bstr "i") := by
  obtain ⟨frag, hfrag, hreg, hopt⟩ := C5_search_regex_escaped witnessParsers "name" "slike:Jo.hn"
    ["slike:"] NewQResult (by decide) rfl "slike:" (by decide) ["Jo.hn"] (by decide)
    (by decide)
  exact ⟨frag, hfrag, hreg.trans (by decide), hopt⟩

theorem fupd_overwrite {α : Type} (m : String → Option α) (k : String) (v1 v2 : α) :
    fupd (fupd m k v1) k v2 = fupd m k v2 := by
  funext x
  by_cases h : x = k <;> simp [fupd, h]

theorem prjAliasFold (projections : String → Option Int) (key : String) (projsum : Int)
    (aliases : List String) (acc : QResult) :
    aliases.foldl (fun a al =>
      match projections al with
      | some _ => { a with Projection := fupd a.Projection key projsum }
      | none => a) acc =
    (if ∃ al ∈ aliases, (projections al).isSome then
      { acc with Projection := fupd acc.Projection key projsum } else acc) := by
  induction aliases generalizing acc with
  | nil => simp
  | cons al tl ih =>
    cases h : projections al with
    | some v =>
      simp only [List.foldl_cons, h]
      rw [ih]
      have hhd : ∃ a2 ∈ al :: tl, (projections a2).isSome := ⟨al, by simp, by simp [h]⟩
      by_cases hex : ∃ a2 ∈ tl, (projections a2).isSome
      · rw [if_pos hex, if_pos hhd]
        simp [fupd_overwrite]
      · rw [if_neg hex, if_pos hhd]
    | none =>
      simp only [List.foldl_cons, h]
      rw [ih]
      by_cases hex : ∃ a2 ∈ tl, (projections a2).isSome
      · rw [if_pos hex, if_pos (by obtain ⟨a2, ha2, hs⟩ := hex; exact ⟨a2, by simp [ha2], hs⟩)]
      · rw [if_neg hex, if_neg ?_]
        rintro ⟨a2, ha2, hs⟩
        rcases List.mem_cons.mp ha2 with rfl | ha2
        · simp [h] at hs
        · exact hex ⟨a2, ha2, hs⟩

theorem srtAliasFold (sorts : String → Option Int) (key : String)
    (aliases : List String) (acc : QResult) :
    aliases.foldl (fun a al =>
      match sorts al with
      | some ord => { a with Srt := fupd a.Srt key ord }
      | none => a) acc =
    (match (aliases.filterMap sorts).getLast? with
     | some ord => { acc with Srt := fupd acc.Srt key ord }
     | none => acc) := by
  induction aliases generalizing acc with
  | nil => simp
  | cons al tl ih =>
    cases h : sorts al with
    | some ord =>
      simp only [List.foldl_cons, h, List.filterMap_cons]
      rw [ih]
      cases hfm : tl.filterMap sorts with
      | nil => simp
      | cons x xs =>
        have hs : (x :: xs).getLast?.isSome := by
          rw [List.getLast?_isSome]; simp
        obtain ⟨g, hg⟩ := Option.isSome_iff_exists.mp hs
        rw [List.getLast?_cons_cons, hg]
        simp [fupd_overwrite]
    | none =>
      simp only [List.foldl_cons, h, List.filterMap_cons]
      rw [ih]

theorem projStep_char (projections : String → Option Int) (projsum : Int)
    (f : QField) (acc : QResult) :
    (if f.IsProjectable then
      match projections f.Key with
      | some _ => { acc with Projection := fupd acc.Projection f.Key projsum }
      | none => f.Aliases.foldl (fun a al =>
          match projections al with
          | some _ => { a with Projection := fupd a.Projection f.Key projsum }
          | none => a) acc
     else acc) =
    (if projHit projections f then
      { acc with Projection := fupd acc.Projection f.Key projsum } else acc) := by
  by_cases hp : f.IsProjectable
  · simp only [hp, if_true]
    cases hk : projections f.Key with
    | some v =>
      rw [if_pos ⟨hp, Or.inl (by simp [hk])⟩]
    | none =>
      rw [prjAliasFold]
      by_cases hex : ∃ al ∈ f.Aliases, (projections al).isSome
      · rw [if_pos hex, if_pos ⟨hp, Or.inr hex⟩]
      · rw [if_neg hex, if_neg ?_]
        rintro ⟨_, hor | hor⟩
        · simp [hk] at hor
        · exact hex hor
  · have hph : ¬ projHit projections f := fun hh => hp hh.1
    simp [hp, hph]

theorem srtStep_char (sorts : String → Option Int) (f : QField) (acc : QResult) :
    (if f.IsSortable then
      match sorts f.Key with
      | some ord => { acc with Srt := fupd acc.Srt f.Key ord }
      | none => f.Aliases.foldl (fun a al =>
          match sorts al with
          | some ord => { a with Srt := fupd a.Srt f.Key ord }
          | none => a) acc
     else acc) =
    (match sortOrdOf sorts f with
     | some ord => { acc with Srt := fupd acc.Srt f.Key ord }
     | none => acc) := by
  by_cases hs : f.IsSortable
  · simp only [hs, if_true, sortOrdOf]
    cases hk : sorts f.Key with
    | some ord => rfl
    | none => rw [srtAliasFold]
  · simp [hs, sortOrdOf]

theorem fupd_isSome {α : Type} (m : String → Option α) (k : String) (v : α) (x : String) :
    ((fupd m k v) x).isSome ↔ x = k ∨ (m x).isSome := by
  by_cases h : x = k <;> simp [fupd, h]

theorem procField_eq (P : Parsers) (proj : String → Option Int) (projsum : Int)
    (sorts : String → Option Int) (query : String → String) (order : List String)
    (f : QField) (acc : QResult)
    (hv : resolveValue f query ≠ "") (hm : ¬ f.IsMeta) :
    procField P proj projsum sorts query order f acc =
      ApplyFilterOrder P f.ftype f.Key (resolveValue f query) order
        (let acc1 := if projHit proj f then
            { acc with Projection := fupd acc.Projection f.Key projsum } else acc
         match sortOrdOf sorts f with
         | some ord => { acc1 with Srt := fupd acc1.Srt f.Key ord }
         | none => acc1) := by
  unfold procField
  simp only [if_neg hv, if_neg hm, projStep_char, srtStep_char]

theorem procField_Limit (P : Parsers) (proj : String → Option Int) (projsum : Int)
    (sorts : String → Option Int) (query : String → String) (order : List String)
    (f : QField) (acc : QResult) :
    (procField P proj projsum sorts query order f acc).Limit = acc.Limit := by
  by_cases hv : resolveValue f query = ""
  · simp [procField, hv]
  · by_cases hm : f.IsMeta
    · simp [procField, hv, hm]
    · rw [procField_eq P proj projsum sorts query order f acc hv hm]
      rw [(ApplyFilterOrder_other P f.ftype f.Key (resolveValue f query) order _).2.2.1]
      cases h : sortOrdOf sorts f <;> by_cases hph : projHit proj f <;> simp [h, hph]

theorem procField_Skip (P : Parsers) (proj : String → Option Int) (projsum : Int)
    (sorts : String → Option Int) (query : String → String) (order : List String)
    (f : QField) (acc : QResult) :
    (procField P proj projsum sorts query order f acc).Skip = acc.Skip := by
  by_cases hv : resolveValue f query = ""
  · simp [procField, hv]
  · by_cases hm : f.IsMeta
    · simp [procField, hv, hm]
    · rw [procField_eq P proj projsum sorts query order f acc hv hm]
      rw [(ApplyFilterOrder_other P f.ftype f.Key (resolveValue f query) order _).2.2.2.1]
      cases h : sortOrdOf sorts f <;> by_cases hph : projHit proj f <;> simp [h, hph]

theorem procField_Projection_self (P : Parsers) (proj : String → Option Int) (projsum : Int)
    (sorts : String → Option Int) (query : String → String) (order : List String)
    (f : QField) (acc : QResult)
    (hv : resolveValue f query ≠ "") (hm : ¬ f.IsMeta) (hph : projHit proj f) :
    (procField P proj projsum sorts query order f acc).Projection f.Key = some projsum := by
  rw [procField_eq P proj projsum sorts query order f acc hv hm]
  rw [(ApplyFilterOrder_other P f.ftype f.Key (resolveValue f query) order _).1]
  cases h : sortOrdOf sorts f <;> simp [h, hph, fupd]

theorem procField_Projection_other (P : Parsers) (proj : String → Option Int) (projsum : Int)
    (sorts : String → Option Int) (query : String → String) (order : List String)
    (f : QField) (acc : QResult) (k : String) (hk : k ≠ f.Key) :
    (procField P proj projsum sorts query order f acc).Projection k = acc.Projection k := by
  by_cases hv : resolveValue f query = ""
  · simp [procField, hv]
  · by_cases hm : f.IsMeta
    · simp [procField, hv, hm]
    · rw [procField_eq P proj projsum sorts query order f acc hv hm]
      rw [(ApplyFilterOrder_other P f.ftype f.Key (resolveValue f query) order _).1]
      cases h : sortOrdOf sorts f <;> by_cases hph : projHit proj f <;>
        simp [h, hph, fupd, hk]

theorem foldFields_Limit (P : Parsers) (proj : String → Option Int) (projsum : Int)
    (sorts : String → Option Int) (query : String → String) (orders : Nat → List String)
    (i : Nat) (l : List QField) (acc : QResult) :
    (foldFields P proj projsum sorts query orders i l acc).Limit = acc.Limit := by
  induction l generalizing i acc with
  | nil => rfl
  | cons f tl ih =>
    rw [foldFields, ih, procField_Limit]

theorem foldFields_Skip (P : Parsers) (proj : String → Option Int) (projsum : Int)
    (sorts : String → Option Int) (query : String → String) (orders : Nat → List String)
    (i : Nat) (l : List QField) (acc : QResult) :
    (foldFields P proj projsum sorts query orders i l acc).Skip = acc.Skip := by
  induction l generalizing i acc with
  | nil => rfl
  | cons f tl ih =>
    rw [foldFields, ih, procField_Skip]

theorem foldFields_Projection_other (P : Parsers) (proj : String → Option Int) (projsum : Int)
    (sorts : String → Option Int) (query : String → String) (orders : Nat → List String)
    (i : Nat) (l : List QField) (acc : QResult) (k : String)
    (hk : ∀ g ∈ l, g.Key ≠ k) :
    (foldFields P proj projsum sorts query orders i l acc).Projection k = acc.Projection k := by
  induction l generalizing i acc with
  | nil => rfl
  | cons f tl ih =>
    rw [foldFields, ih _ _ (fun g hg => hk g (by simp [hg]))]
    exact procField_Projection_other P proj projsum sorts query (orders i) f acc k
      (Ne.symm (hk f (by simp)))

theorem foldFields_append (P : Parsers) (proj : String → Option Int) (projsum : Int)
    (sorts : String → Option Int) (query : String → String) (orders : Nat → List String)
    (i : Nat) (l1 l2 : List QField) (acc : QResult) :
    foldFields P proj projsum sorts query orders i (l1 ++ l2) acc =
      foldFields P proj projsum sorts query orders (i + l1.length) l2
        (foldFields P proj projsum sorts query orders i l1 acc) := by
  induction l1 generalizing i acc with
  | nil => simp [foldFields]
  | cons f tl ih =>
    show foldFields P proj projsum sorts query orders (i + 1) (tl ++ l2) _ = _
    rw [ih]
    have harith : i + 1 + tl.length = i + (f :: tl).length := by
      simp [List.length_cons]; omega
    rw [harith]
    rfl

theorem processPrj_snd (toks : List (List Char)) (m : String → Option Int) (s : Int) :
    (processPrj toks (m, s)).2 = s + prjSum toks := by
  induction toks generalizing m s with
  | nil => simp [processPrj, prjSum]
  | cons tok rest ih =>
    by_cases h0 : tok = []
    · simp [processPrj, prjSum, h0, ih]
    · by_cases hp : tok.head? = some '+'
      · have hm : ¬ tok.head? = some '-' := by
          rw [hp]; intro h; injection h with h2; cases h2
        simp only [processPrj, prjSum, if_neg h0, if_pos hp, if_neg hm, ih]
        omega
      · by_cases hm : tok.head? = some '-'
        · simp only [processPrj, prjSum, if_neg h0, if_neg hp, if_pos hm, ih]
          omega
        · simp only [processPrj, prjSum, if_neg h0, if_neg hp, if_neg hm, ih]
          omega

theorem processPrj_mem (toks : List (List Char)) (m : String → Option Int) (s : Int)
    (name : String) :
    ((processPrj toks (m, s)).1 name).isSome ↔ name ∈ prjNames toks ∨ (m name).isSome := by
  induction toks generalizing m s with
  | nil => simp [processPrj, prjNames]
  | cons tok rest ih =>
    by_cases h0 : tok = []
    · simp [processPrj, prjNames, h0, ih]
    · by_cases hp : tok.head? = some '+'
      · have hm : ¬ tok.head? = some '-' := by
          rw [hp]; intro h; injection h with h2; cases h2
        simp only [processPrj, prjNames, if_neg h0, if_pos hp, if_neg hm,
          if_pos (Or.inl hp), ih, fupd_isSome, List.mem_cons]
        tauto
      · by_cases hm : tok.head? = some '-'
        · simp only [processPrj, prjNames, if_neg h0, if_neg hp, if_pos hm,
            if_pos (Or.inr hm), ih, fupd_isSome, List.mem_cons]
          tauto
        · have hpm : ¬ (tok.head? = some '+' ∨ tok.head? = some '-') := by
            rintro (h | h)
            · exact hp h
            · exact hm h
          simp only [processPrj, prjNames, if_neg h0, if_neg hp, if_neg hm,
            if_neg hpm, ih, fupd_isSome, List.mem_cons]
          tauto

/-- C4 (amended): the reserved lmt and skp parameters are parsed by
strconv.ParseInt (base 10, 64-bit, sign permitted) and the parsed value is
assigned to Limit / Skip verbatim - including negative values; when the
parameter is absent or does not parse, the output stays at its zero default.
(The original claim's "always non-negative" fails: see C4_counterexample.) -/
theorem C4_paging_parseint_verbatim (P : Parsers) (fields : List QField)
    (orders : Nat → List String) (query : String → String) :
    (processQuery P fields orders query).Limit =
      (match goParseInt (query "lmt") with | some l => l | none => 0) ∧
    (processQuery P fields orders query).Skip =
      (match goParseInt (query "skp") with | some s => s | none => 0) := by
  unfold processQuery
  constructor
  · rw [foldFields_Limit]
  · rw [foldFields_Skip]

/-- C4 counterexample: the raw map lmt=-5, skp=-7 parses successfully and the
returned Limit and Skip are negative, refuting "the Limit and Skip fields of
the returned result are always non-negative". -/
theorem C4_counterexample :
    (processQuery witnessParsers [] (fun _ => []) (qy [("lmt", "-5"), ("skp", "-7")])).Limit = -5 ∧
    (processQuery witnessParsers [] (fun _ => []) (qy [("lmt", "-5"), ("skp", "-7")])).Skip = -7 ∧
    (processQuery witnessParsers [] (fun _ => []) (qy [("lmt", "-5"), ("skp", "-7")])).Limit < 0 := by
  refine ⟨by decide, by decide, by decide⟩

/-- C3 (amended): the projection processor keeps a running sum starting at 1,
adds 1 per token with an include marker or no marker, subtracts 1 per token
with an exclude marker, clamps the result to the range 0..1, and assigns that
single clamped value as the projection entry of every projectable declared
field that appears in the token list directly or via an alias AND whose raw
value resolves non-empty (a named projectable field with no resolved value is
skipped before projection application and gets no entry: see
C3_counterexample). -/
theorem C3_projection_sign_sum_clamped (P : Parsers) (fields : List QField)
    (orders : Nat → List String) (query : String → String) (f : QField)
    (hf : f ∈ fields) (hnd : (fields.map QField.Key).Nodup)
    (hproj : f.IsProjectable) (hmeta : ¬ f.IsMeta)
    (hval : resolveValue f query ≠ "")
    (hnamed : f.Key ∈ prjNames (splitComma (query "prj").toList) ∨
      ∃ a ∈ f.Aliases, a ∈ prjNames (splitComma (query "prj").toList)) :
    (processQuery P fields orders query).Projection f.Key =
      some (max 0 (min 1 (1 + prjSum (splitComma (query "prj").toList)))) := by
  obtain ⟨pre, post, rfl⟩ := List.append_of_mem hf
  have hpost : ∀ g ∈ post, g.Key ≠ f.Key := by
    intro g hg heq
    rw [List.map_append, List.map_cons] at hnd
    have h2 := (List.nodup_append.mp hnd).2.1
    exact (List.nodup_cons.mp h2).1 (heq ▸ List.mem_map_of_mem QField.Key hg)
  have hhit : projHit (processPrj (splitComma (query "prj").toList) ((fun _ => none), 1)).1 f := by
    refine ⟨hproj, ?_⟩
    rcases hnamed with hn | ⟨a, ha, hn⟩
    · exact Or.inl ((processPrj_mem _ _ _ _).mpr (Or.inl hn))
    · exact Or.inr ⟨a, ha, (processPrj_mem _ _ _ _).mpr (Or.inl hn)⟩
  unfold processQuery
  rw [foldFields_append, foldFields]
  rw [foldFields_Projection_other _ _ _ _ _ _ _ _ _ _ hpost]
  rw [procField_Projection_self _ _ _ _ _ _ _ _ hval hmeta hhit]
  rw [processPrj_snd]

/-- C3 counterexample: field a is projectable, the projection parameter -a
names it and the clamped sum is 0, yet because no raw value for a resolves,
the output projection has no entry for a at all - the claim as stated
(every projectable field in the token list gets the clamped value) fails. -/
theorem C3_counterexample :
    fProj.IsProjectable = true ∧
    prjNames (splitComma ((qy [("prj", "-a")]) "prj").toList) = ["a"] ∧
    max 0 (min 1 (1 + prjSum (splitComma ((qy [("prj", "-a")]) "prj").toList))) = 0 ∧
    (processQuery witnessParsers [fProj] (fun _ => []) (qy [("prj", "-a")])).Projection "a" = none := by
  refine ⟨rfl, by decide, by decide, by decide⟩

/-- C3 witness: with prj set to minus a and a resolving to the value x, the
projectable field a gets the uniformly clamped value 0 (exclude semantics);
with tokens +a,-b,-c the sum 1+1-1-1 = 0 also clamps to 0. -/
theorem C3_witness :
    (processQuery witnessParsers [fProj] (fun _ => ["eq:"]) (qy [("prj", "-a"), ("a", "x")])).Projection "a" = some 0 ∧
    (processQuery witnessParsers [fProj] (fun _ => ["eq:"]) (qy [("prj", "+a,-b,-c"), ("a", "x")])).Projection "a" = some 0 := by
  constructor
  · have h := C3_projection_sign_sum_clamped witnessParsers [fProj] (fun _ => ["eq:"])
      (qy [("prj", "-a"), ("a", "x")]) fProj (by simp) (by simp) rfl (by decide) (by decide)
      (Or.inl (by decide))
    exact h.trans (by decide)
  · have h := C3_projection_sign_sum_clamped witnessParsers [fProj] (fun _ => ["eq:"])
      (qy [("prj", "+a,-b,-c"), ("a", "x")]) fProj (by simp) (by simp) rfl (by decide) (by decide)
      (Or.inl (by decide))
    exact h.trans (by decide)

theorem trimSuffixComma_append_comma (s : List Char) :
    trimSuffixComma (s ++ [',']) = s := by
  unfold trimSuffixComma
  rw [List.reverse_append]
  simp

theorem trimSuffixComma_of_no_comma (s : List Char) (h : s.getLast? ≠ some ',') :
    trimSuffixComma s = s := by
  unfold trimSuffixComma
  cases hr : s.reverse with
  | nil => rfl
  | cons c r =>
    have hc : s.getLast? = some c := by
      rw [← List.head?_reverse, hr]
      rfl
    have : ¬ c = ',' := by
      intro he
      exact h (he ▸ hc)
    simp [this]

/-- C2: the tokenizer's operator map is the in-encounter-order accumulation
of the occurrence list (so values of a repeated operator accumulate in
encounter order); with no operator token anywhere, the whole string (one
trailing comma discarded) is comma-split and assigned to the equality
operator; content before the first operator token is assigned to the equality
operator, ahead of any explicit equality segments; and every segment is split
on commas with one trailing empty fragment from a trailing comma discarded. -/
theorem C2_tokenizer_segments (q : List Char) :
    (∀ op, lookupOvm (toOpValueMap q) op =
      (if (occList q).any (fun e => e.1 = op) then some (valsFor op (occList q)) else none)) ∧
    (findOps q 0 = [] →
      toOpValueMap q = [("eq:", (splitComma (trimSuffixComma q)).map String.mk)]) ∧
    (∀ s0 e0 op0 rest, findOps q 0 = (s0, e0, op0) :: rest → 0 < s0 →
      occList q = ("eq:", splitVals (sliceCL q 0 s0)) :: segsOf q ((s0, e0, op0) :: rest)) ∧
    (∀ s : List Char, splitVals (s ++ [',']) = (splitComma s).map String.mk) ∧
    (∀ s : List Char, s.getLast? ≠ some ',' → splitVals s = (splitComma s).map String.mk) := by
  refine ⟨toOpValueMap_lookup q, ?_, ?_, ?_, ?_⟩
  · intro h
    rw [toOpValueMap_noop q h]
    rfl
  · intro s0 e0 op0 rest hfind h0
    unfold occList
    rw [hfind]
    show (if 0 < s0 then [("eq:", splitVals (sliceCL q 0 s0))] else [])
      ++ segsOf q ((s0, e0, op0) :: rest) = _
    rw [if_pos h0]
    rfl
  · intro s
    unfold splitVals
    rw [trimSuffixComma_append_comma]
  · intro s h
    unfold splitVals
    rw [trimSuffixComma_of_no_comma s h]

/-- C2 witness: a repeated eq: operator accumulates its values in encounter
order; an operatorless value with a trailing comma loses one empty fragment;
leading content before the first operator is assigned to the equality
operator (and is itself trimmed and split). -/
theorem C2_witness :
    lookupOvm (toOpValueMap ("eq:a,eq:b" : String).toList) "eq:" = some ["a", "b"] ∧
    toOpValueMap ("a,b," : String).toList = [("eq:", ["a", "b"])] ∧
    occList ("abc,eq:5" : String).toList = [("eq:", ["abc"]), ("eq:", ["5"])] ∧
    splitVals (("x,y" : String).toList ++ [',']) = ["x", "y"] := by
  refine ⟨?_, ?_, ?_, ?_⟩
  · exact ((C2_tokenizer_segments ("eq:a,eq:b" : String).toList).1 "eq:").trans (by decide)
  · exact ((C2_tokenizer_segments ("a,b," : String).toList).2.1 (by decide)).trans (by decide)
  · exact ((C2_tokenizer_segments ("abc,eq:5" : String).toList).2.2.1 4 7 "eq:" []
      (by decide) (by decide)).trans (by decide)
  · exact ((C2_tokenizer_segments ("x,y" : String).toList).2.2.2.1 _).trans (by decide)

theorem find?_first_nonempty (query : String → String) (pre : List String) (a : String)
    (post : List String) (hpre : ∀ b ∈ pre, query b = "") (ha : query a ≠ "") :
    (pre ++ a :: post).find? (fun x => query x ≠ "") = some a := by
  induction pre with
  | nil =>
    exact List.find?_cons_of_pos _ (by simpa using ha)
  | cons b tl ih =>
    rw [List.cons_append, List.find?_cons_of_neg _ (by simpa using hpre b (by simp))]
    exact ih (fun b2 hb2 => hpre b2 (by simp [hb2]))

theorem find?_none_of_all_empty (query : String → String) (l : List String)
    (h : ∀ b ∈ l, query b = "") :
    l.find? (fun x => query x ≠ "") = none := by
  rw [List.find?_eq_none]
  intro x hx
  simpa using h x hx

/-- C6: the raw value of a declared field resolves in this order - the
declared key when its value is non-empty; otherwise the first alias (in
declaration order) with a non-empty value; otherwise the default supplier,
invoked only when configured; otherwise the empty string - and a field whose
value stays empty is skipped entirely: the field-loop step returns the
accumulator unchanged, so the field contributes nothing to filter,
projection, sort, or meta even when it is named in the reserved sort or
projection parameters. -/
theorem C6_resolution_order (f : QField) (query : String → String) :
    (query f.Key ≠ "" → resolveValue f query = query f.Key) ∧
    (∀ pre a post, f.Aliases = pre ++ a :: post → query f.Key = "" →
      (∀ b ∈ pre, query b = "") → query a ≠ "" → resolveValue f query = query a) ∧
    (query f.Key = "" → (∀ b ∈ f.Aliases, query b = "") → f.HasDefaultFunc →
      resolveValue f query = f.Default ()) ∧
    (query f.Key = "" → (∀ b ∈ f.Aliases, query b = "") → ¬ f.HasDefaultFunc →
      resolveValue f query = "") ∧
    (∀ (P : Parsers) (projections : String → Option Int) (projsum : Int)
      (sorts : String → Option Int) (order : List String) (acc : QResult),
      resolveValue f query = "" →
      procField P projections projsum sorts query order f acc = acc) := by
  refine ⟨?_, ?_, ?_, ?_, ?_⟩
  · intro h
    simp [resolveValue, h]
  · intro pre a post hal hk hpre ha
    unfold resolveValue
    rw [hal]
    simp only [hk, if_pos rfl, find?_first_nonempty query pre a post hpre ha]
    simp [ha]
  · intro hk hall hd
    unfold resolveValue
    simp only [hk, if_pos rfl, find?_none_of_all_empty query f.Aliases hall]
    simp [hd]
  · intro hk hall hd
    unfold resolveValue
    simp only [hk, if_pos rfl, find?_none_of_all_empty query f.Aliases hall]
    simp [hd]
  · intro P projections projsum sorts order acc h
    simp [procField, h]

/-- C6 witness: with the key objectId absent and the first alias oid empty,
the second alias id supplies the value; a field resolving no value leaves the
whole accumulator untouched. -/
theorem C6_witness :
    resolveValue fAlias (qy [("id", "x")]) = "x" ∧
    procField witnessParsers (fun _ => none) 1 (fun _ => none) (qy []) [] fInt NewQResult
      = NewQResult := by
  constructor
  · exact (C6_resolution_order fAlias (qy [("id", "x")])).2.1 ["oid"] "id" [] rfl
      (by decide) (by decide) (by decide)
  · exact (C6_resolution_order fInt (qy [])).2.2.2.2 witnessParsers (fun _ => none) 1
      (fun _ => none) [] NewQResult (by decide)

/-- C7: a meta-typed field whose value resolves non-empty contributes exactly
one meta entry - the resolved value verbatim under the field's key - and
leaves filter, projection, sort, limit and skip untouched, regardless of the
field's remaining configuration. -/
theorem C7_meta_short_circuit (P : Parsers) (projections : String → Option Int)
    (projsum : Int) (sorts : String → Option Int) (query : String → String)
    (order : List String) (f : QField) (acc : QResult)
    (hmeta : f.IsMeta) (hval : resolveValue f query ≠ "") :
    procField P projections projsum sorts query order f acc =
      { acc with Meta := fupd acc.Meta f.Key (resolveValue f query) } := by
  simp [procField, hval, hmeta]

/-- C7 witness: the meta field pageMarker with value xyz lands verbatim in
the meta map and nothing else changes, even with the projectable and sortable
flags set. -/
theorem C7_witness :
    procField witnessParsers (fun _ => none) 1 (fun _ => none)
      (qy [("pageMarker", "xyz"), ("prj", "pageMarker"), ("srt", "pageMarker")]) []
      { fMeta with IsProjectable := true, IsSortable := true } NewQResult
      = { NewQResult with Meta := fupd NewQResult.Meta "pageMarker" "xyz" } := by
  exact C7_meta_short_circuit witnessParsers (fun _ => none) 1 (fun _ => none)
    (qy [("pageMarker", "xyz"), ("prj", "pageMarker"), ("srt", "pageMarker")]) []
    { fMeta with IsProjectable := true, IsSortable := true } NewQResult rfl (by decide)

theorem lastWrite_cat_indep (P : Parsers) (t : QType) (q : List Char)
    (O1 O2 : List String) (m : String)
    (hv1 : O1.Perm (ovmKeys (toOpValueMap q)))
    (hv2 : O2.Perm (ovmKeys (toOpValueMap q)))
    (hone : t = QType.QString → ∀ o1 ∈ ovmKeys (toOpValueMap q),
      ∀ o2 ∈ ovmKeys (toOpValueMap q), o1 ∈ searchOps → o2 ∈ searchOps → o1 = o2) :
    lastWrite (catWrites (ovmW P t (toOpValueMap q)) O1) m =
    lastWrite (catWrites (ovmW P t (toOpValueMap q)) O2) m := by
  by_cases hex : ∃ κ ∈ ovmKeys (toOpValueMap q), m ∈ writeKeys t κ
  · obtain ⟨κ, hκmem, hκm⟩ := hex
    have huniq : ∀ o ∈ ovmKeys (toOpValueMap q), m ∈ writeKeys t o → o = κ := by
      intro o ho hom
      by_cases hne : o = κ
      · exact hne
      · obtain ⟨hos, hκs, ht⟩ := writer_unique t o κ m (toOpValueMap_keys_sub q o ho)
          (toOpValueMap_keys_sub q κ hκmem) hom hκm hne
        exact hone ht o ho κ hκmem hos hκs
    rw [lastWrite_cat_of_writer P t q O1 κ m hv1 hκmem huniq,
        lastWrite_cat_of_writer P t q O2 κ m hv2 hκmem huniq]
  · push_neg at hex
    rw [lastWrite_cat_none P t _ O1 m (fun o ho => hex o (hv1.mem_iff.mp ho)),
        lastWrite_cat_none P t _ O2 m (fun o ho => hex o (hv2.mem_iff.mp ho))]

theorem AFO_indep (P : Parsers) (t : QType) (key qvalue : String)
    (O1 O2 : List String) (out : QResult)
    (hv1 : validOrder qvalue O1) (hv2 : validOrder qvalue O2)
    (hone : t = QType.QString → atMostOneSearch qvalue) :
    ApplyFilterOrder P t key qvalue O1 out = ApplyFilterOrder P t key qvalue O2 out := by
  rw [ApplyFilterOrder_eq P t key qvalue O1 out hv1,
      ApplyFilterOrder_eq P t key qvalue O2 out hv2]
  have hsum : sumCnt (ovmC P t (toOpValueMap qvalue.toList)) O1
      = sumCnt (ovmC P t (toOpValueMap qvalue.toList)) O2 :=
    sumCnt_perm _ (hv1.trans hv2.symm)
  have hW : applyWrites (fun _ => none) (catWrites (ovmW P t (toOpValueMap qvalue.toList)) O1)
      = applyWrites (fun _ => none) (catWrites (ovmW P t (toOpValueMap qvalue.toList)) O2) := by
    funext m
    rw [applyWrites_empty, applyWrites_empty]
    exact lastWrite_cat_indep P t qvalue.toList O1 O2 m hv1 hv2 hone
  rw [hsum, hW]

theorem procField_indep (P : Parsers) (proj : String → Option Int) (projsum : Int)
    (sorts : String → Option Int) (query : String → String) (O1 O2 : List String)
    (f : QField) (acc : QResult)
    (hv1 : validOrder (resolveValue f query) O1) (hv2 : validOrder (resolveValue f query) O2)
    (hone : f.ftype = QType.QString → atMostOneSearch (resolveValue f query)) :
    procField P proj projsum sorts query O1 f acc = procField P proj projsum sorts query O2 f acc := by
  by_cases hv : resolveValue f query = ""
  · simp [procField, hv]
  · by_cases hm : f.IsMeta
    · simp [procField, hv, hm]
    · rw [procField_eq P proj projsum sorts query O1 f acc hv hm,
          procField_eq P proj projsum sorts query O2 f acc hv hm]
      exact AFO_indep P f.ftype f.Key (resolveValue f query) O1 O2 _ hv1 hv2 hone

theorem foldFields_indep (P : Parsers) (proj : String → Option Int) (projsum : Int)
    (sorts : String → Option Int) (query : String → String) (O1 O2 : Nat → List String)
    (l : List QField) :
    ∀ (i : Nat) (acc : QResult),
    ordersValidFrom query O1 i l → ordersValidFrom query O2 i l →
    (∀ f ∈ l, f.ftype = QType.QString → atMostOneSearch (resolveValue f query)) →
    foldFields P proj projsum sorts query O1 i l acc
      = foldFields P proj projsum sorts query O2 i l acc := by
  induction l with
  | nil => intro i acc _ _ _; rfl
  | cons f tl ih =>
    intro i acc h1 h2 hone
    rw [foldFields, foldFields]
    rw [procField_indep P proj projsum sorts query (O1 i) (O2 i) f acc h1.1 h2.1
      (hone f (by simp))]
    exact ih (i + 1) _ h1.2 h2.2 (fun g hg => hone g (by simp [hg]))

/-- C9 (amended): with a fixed field configuration, a fixed raw parameter
map and deterministic parsers, two invocations of the processor yield
structurally identical results PROVIDED that, for every field processed as a
string, the resolved value contains at most one distinct search operator -
formally, the result does not depend on which (unspecified) iteration order
Go's map range chooses for each field's operator map.  No mutable state is
carried between invocations, but with two distinct search operators in one
string field's value both write the same regex key and the last writer wins,
so the unrestricted claim fails: see C9_counterexample. -/
theorem C9_idempotent_amended (P : Parsers) (fields : List QField)
    (O1 O2 : Nat → List String) (query : String → String)
    (h1 : ordersValidFrom query O1 0 fields) (h2 : ordersValidFrom query O2 0 fields)
    (hone : ∀ f ∈ fields, f.ftype = QType.QString → atMostOneSearch (resolveValue f query)) :
    processQuery P fields O1 query = processQuery P fields O2 query := by
  unfold processQuery
  exact foldFields_indep P _ _ _ query O1 O2 fields 0 _ h1 h2 hone

/-- C9 counterexample: on the same raw map (name set to like:a,slike:b) the
same processor run under two iteration orders that Go's unspecified map
range may both produce yields two structurally different results - the regex
entry is the escaped anchored b pattern under one order and the escaped a
pattern under the other - refuting "two invocations on that same map yield
structurally identical results". -/
theorem C9_counterexample :
    ordersValidFrom (qy [("name", "like:a,slike:b")]) (fun _ => ["like:", "slike:"]) 0 [fName] ∧
    ordersValidFrom (qy [("name", "like:a,slike:b")]) (fun _ => ["slike:", "like:"]) 0 [fName] ∧
    regexObs (processQuery witnessParsers [fName] (fun _ => ["like:", "slike:"])
      (qy [("name", "like:a,slike:b")])) = some (BVal.bstr "^b") ∧
    regexObs (processQuery witnessParsers [fName] (fun _ => ["slike:", "like:"])
      (qy [("name", "like:a,slike:b")])) = some (BVal.bstr "a") ∧
    processQuery witnessParsers [fName] (fun _ => ["like:", "slike:"])
        (qy [("name", "like:a,slike:b")]) ≠
      processQuery witnessParsers [fName] (fun _ => ["slike:", "like:"])
        (qy [("name", "like:a,slike:b")]) := by
  refine ⟨by decide, by decide, by decide, by decide, ?_⟩
  intro h
  have h1 : regexObs (processQuery witnessParsers [fName] (fun _ => ["like:", "slike:"])
      (qy [("name", "like:a,slike:b")])) = some (BVal.bstr "^b") := by decide
  have h2 : regexObs (processQuery witnessParsers [fName] (fun _ => ["slike:", "like:"])
      (qy [("name", "like:a,slike:b")])) = some (BVal.bstr "a") := by decide
  rw [h] at h1
  exact absurd (h1.symm.trans h2) (by decide)

/-- C9 witness: on the integer field value gt:1,lt:10 the two possible
iteration orders of the operator map produce identical results. -/
theorem C9_witness :
    processQuery witnessParsers [fInt] (fun _ => ["gt:", "lt:"]) (qy [("count", "gt:1,lt:10")])
      = processQuery witnessParsers [fInt] (fun _ => ["lt:", "gt:"]) (qy [("count", "gt:1,lt:10")]) :=
  C9_idempotent_amended witnessParsers [fInt] (fun _ => ["gt:", "lt:"]) (fun _ => ["lt:", "gt:"])
    (qy [("count", "gt:1,lt:10")]) (by decide) (by decide) (by decide)

end MongoQS
